import Mathlib

/-!
# Probe listing (`src/list.cpp`)

A shallow embedding of `bpftrace::list_probes` and its helpers.

* `std::string` is `List Char`.
* Output is a trace of `Event`s (lines written to `std::cout` / `std::cerr`, calls to
  external collaborators), together with the way control leaves the code (`Ctl`).
* `std::regex` with the flags `icase | grep | nosubs | optimize` is modelled for every
  pattern without backslash, opening bracket and NUL (`grep_parse`, `grep_search`,
  `grep_match`); what the engine does on the remaining patterns is the parameter
  `regex_ext` of the environment.
* Every loop of the code is bounded by its input except the header loop of
  `print_tracepoint_args`, which carries a bound on its rounds (`fuel`); a run that
  reaches the bound ends with `Ctl.hang`.
* Declarations of other files (`probetypeName`, the probe catalogs, the path resolver,
  the USDT queries, the symbol extraction), the file system and the verbosity flag are
  the fields of `Env`.
-/

namespace bpftrace

/-! ## Strings -/

/-- The type of `std::string` values. -/
abbrev Str := List Char

/-- Index-free form of `s.find(c) != std::string::npos`. -/
def contains_char (c : Char) (s : Str) : Bool := s.any (fun d => d == c)

/-- The value of `s.substr(0, s.find(c))`: everything before the first `c`, the whole
string when there is none (`npos` as a length). -/
def before_first (c : Char) : Str → Str
  | [] => []
  | d :: s => if d == c then [] else d :: before_first c s

/-- The value of `s.substr(s.find(c))` when `c` occurs: the string from its first `c` on
(empty when there is none). -/
def from_first (c : Char) : Str → Str
  | [] => []
  | d :: s => if d == c then d :: s else from_first c s

/-- The value of `s.substr(s.find(c) + 1, s.size())`: everything after the first `c`;
when there is none, `npos + 1` wraps to `0` and the result is the whole string. -/
def after_first (c : Char) (s : Str) : Str :=
  match from_first c s with
  | [] => s
  | _ :: r => r

/-! ## The regular-expression engine

`std::regex::grep` is the POSIX basic grammar with line feed as an additional alternation
separator. Without backslash and bracket the special characters are `.`, `*`, `^`, `$`
and line feed; every other character is an ordinary character. With `icase` an ordinary
character matches the characters with the same `tolower` image, and `.` matches every
character except NUL. -/

/-- An atom of the basic grammar: an ordinary character or `.`. -/
inductive Atom where
  | chr (c : Char)
  | any
  deriving DecidableEq, Repr

/-- A term of an alternative: the assertions `^` and `$`, or an atom, possibly followed
by `*`. -/
inductive Term where
  | bol
  | eol
  | atom (a : Atom) (star : Bool)
  deriving DecidableEq, Repr

/-- A parsed pattern: the list of its alternatives. -/
abbrev GrepRegex := List (List Term)

/-- Character test of an atom under `icase`. -/
def Atom.accepts : Atom → Char → Bool
  | .chr c, d => d.toLower == c.toLower
  | .any, d => d != Char.ofNat 0

/-- One scanner/parser step inside an alternative; the terms read so far are kept in
reverse. A `*` needs an atom in front of it, otherwise the pattern is rejected. -/
def parse_step (acc : Option (List Term)) (c : Char) : Option (List Term) :=
  match acc with
  | none => none
  | some ts =>
    if c == '*' then
      match ts with
      | Term.atom a _ :: rest => some (Term.atom a true :: rest)
      | _ => none
    else if c == '^' then some (Term.bol :: ts)
    else if c == '$' then some (Term.eol :: ts)
    else if c == '.' then some (Term.atom Atom.any false :: ts)
    else some (Term.atom (Atom.chr c) false :: ts)

/-- Parse one alternative (a pattern piece without line feed). -/
def parse_alt (p : Str) : Option (List Term) :=
  (p.foldl parse_step (some [])).map List.reverse

/-- Cut a pattern at its line feeds. -/
def split_alts : Str → List Str
  | [] => [[]]
  | c :: cs =>
    match split_alts cs with
    | [] => [[]]
    | a :: as => if c == Char.ofNat 10 then [] :: a :: as else (c :: a) :: as

/-- Parse all alternatives; `none` when one of them is rejected. -/
def parse_alts : List Str → Option GrepRegex
  | [] => some []
  | a :: as =>
    match parse_alt a, parse_alts as with
    | some t, some ts => some (t :: ts)
    | _, _ => none

/-- Compile a pattern of the modelled grammar; `none` is `std::regex_error`. -/
def grep_parse (p : Str) : Option GrepRegex := parse_alts (split_alts p)

/-- Repetition of an atom: try the continuation `k` here, or consume one accepted
character and repeat. The flag tells whether the position is the start of the input. -/
def star_loop (ok : Char → Bool) (k : Bool → Str → Bool) : Bool → Str → Bool
  | b, [] => k b []
  | b, c :: s => k b (c :: s) || (ok c && star_loop ok k false s)

/-- Match the terms of one alternative against a suffix of the input. `full` asks the
match to end at the end of the input (`regex_match`); `b` tells whether the suffix starts
at the start of the input, the only place where `^` holds. -/
def match_terms (full : Bool) : List Term → Bool → Str → Bool
  | [], _, s => !full || s.isEmpty
  | Term.bol :: ts, b, s => b && match_terms full ts b s
  | Term.eol :: ts, b, s => s.isEmpty && match_terms full ts b s
  | Term.atom a false :: ts, _, s =>
    match s with
    | [] => false
    | c :: r => a.accepts c && match_terms full ts false r
  | Term.atom a true :: ts, b, s => star_loop a.accepts (match_terms full ts) b s

/-- Try every start position, left to right, as `regex_search` does. -/
def search_from (re : GrepRegex) : Bool → Str → Bool
  | b, [] => re.any (fun alt => match_terms false alt b [])
  | b, c :: s => re.any (fun alt => match_terms false alt b (c :: s)) || search_from re false s

/-- Model of `std::regex_search(s, re)`. -/
def grep_search (re : GrepRegex) (s : Str) : Bool := search_from re true s

/-- Model of `std::regex_match(s, re)`. -/
def grep_match (re : GrepRegex) (s : Str) : Bool := re.any (fun alt => match_terms true alt true s)

/-- A compiled `std::regex`, seen through the two operations the code applies to it.
`none` stands for a `std::regex_error` thrown while matching. -/
structure Regex where
  search : Str → Option Bool
  full : Str → Option Bool

/-- The compiled form of a pattern of the modelled grammar; matching never throws. -/
def Regex.ofGrep (re : GrepRegex) : Regex :=
  { search := fun s => some (grep_search re s), full := fun s => some (grep_match re s) }

/-- Whether a pattern is outside the modelled grammar. -/
def unmodelled (p : Str) : Bool :=
  p.any (fun c => c == '\\' || c == '[' || c == Char.ofNat 0)

/-- Model of `std::regex(p, icase | grep | nosubs | optimize)`; `none` is
`std::regex_error`. Patterns outside the modelled grammar are handed to `ext`. -/
def std_regex (ext : Str → Option Regex) (p : Str) : Option Regex :=
  if unmodelled p then ext p else (grep_parse p).map Regex.ofGrep

/-! ## Input streams -/

/-- An input stream (`std::ifstream`, `std::istringstream`): the characters not yet
read and the two state bits the code depends on. -/
structure IStream where
  buf : Str
  eofbit : Bool
  failbit : Bool

/-- The stream state right after opening a readable source. -/
def IStream.opened (content : Str) : IStream :=
  { buf := content, eofbit := false, failbit := false }

/-- Value of `good()`. -/
def IStream.good (s : IStream) : Bool := !s.eofbit && !s.failbit

/-- Model of `std::getline(s, line)`. When the stream is not good the sentry fails:
`failbit` is set and `line` keeps its value. Otherwise `line` is erased and filled with
the characters up to the next line feed, which is consumed; reaching the end of the
input sets `eofbit`, and `failbit` too when nothing was extracted. -/
def getline (s : IStream) (line : Str) : IStream × Str :=
  if s.good then
    match from_first '\n' s.buf with
    | [] => ({ buf := [], eofbit := true, failbit := s.buf.isEmpty }, s.buf)
    | _ :: rest => ({ s with buf := rest }, before_first '\n' s.buf)
  else ({ s with failbit := true }, line)

/-- The loop `while (std::getline(s, line)) ...`: the values `line` takes in the
successive rounds. The stream converts to `true` as long as `failbit` is clear. -/
def getline_loop : Nat → IStream → Str → List Str
  | 0, _, _ => []
  | n + 1, s, line =>
    let r := getline s line
    if r.1.failbit then [] else r.2 :: getline_loop n r.1 r.2

/-- All rounds of `while (std::getline(s, line))` on a freshly opened source; one more
round than there are characters is enough (`getlines_eq_file_lines`). -/
def getlines (content : Str) : List Str :=
  getline_loop (content.length + 1) (IStream.opened content) []

/-- The lines of a text: the pieces ended by a line feed and, when non-empty, the piece
after the last line feed. -/
def file_lines : Str → List Str
  | [] => []
  | c :: cs =>
    if c == '\n' then [] :: file_lines cs
    else
      match file_lines cs with
      | [] => [[c]]
      | l :: ls => (c :: l) :: ls

/-! ## Events and control -/

/-- The statements of `list.cpp` that write to `std::cout`. -/
inductive Stage where
  | software
  | hardware
  | uprobe
  | usdt
  | tracepoint
  | tracepoint_args
  | kprobe
  deriving DecidableEq, Repr

/-- What the code does to the outside world, in order. -/
inductive Event where
  | cout (stage : Stage) (line : Str)
  | cerr (line : Str)
  | resolve_binary_path (cmd : Str) (pid : Option Int)
  | extract_func_symbols_from_path (path : Str)
  | probes_for_pid (pid : Int)
  | probes_for_path (path : Str)
  | display_funcs (pattern : Bool)
  deriving DecidableEq, Repr

/-- How control leaves a piece of code: it falls through to the next statement, executes
`return`, does not come back within the given number of loop rounds, or leaves by an
exception. -/
inductive Ctl where
  | next
  | ret
  | hang
  | throw
  deriving DecidableEq, Repr

/-- The events of a piece of code and the way control leaves it. -/
structure Run where
  trace : List Event
  ctl : Ctl
  deriving DecidableEq, Repr

/-- Straight-line code that only produces events. -/
def Run.emit (evs : List Event) : Run := { trace := evs, ctl := Ctl.next }

/-- Sequential composition: the second piece runs only when the first falls through. -/
def Run.andThen (r k : Run) : Run :=
  match r.ctl with
  | Ctl.next => { trace := r.trace ++ k.trace, ctl := k.ctl }
  | _ => r

/-- The lines written to standard output. -/
def stdout_lines : List Event → List Str
  | [] => []
  | Event.cout _ l :: es => l :: stdout_lines es
  | _ :: es => stdout_lines es

/-- The lines written to standard output by one stage. -/
def stage_lines (st : Stage) : List Event → List Str
  | [] => []
  | Event.cout st2 l :: es => if st2 = st then l :: stage_lines st es else stage_lines st es
  | _ :: es => stage_lines st es

/-! ## The environment -/

/-- An entry of `SW_PROBE_LIST` / `HW_PROBE_LIST`; only `path` is read here. -/
structure ProbeListItem where
  path : Str

/-- An entry of a `usdt_probe_list`. -/
structure usdt_probe_entry where
  path : Str
  provider : Str
  name : Str

/-- Everything `list.cpp` takes from outside: declarations of other files of the
repository, the tracing context, the file system and the verbosity flag. -/
structure Env where
  /-- What `std::regex` makes of a pattern outside the modelled grammar. -/
  regex_ext : Str → Option Regex
  /-- The alias table: the canonical name of a probe type. -/
  probetypeName : Str → Str
  SW_PROBE_LIST : List ProbeListItem
  HW_PROBE_LIST : List ProbeListItem
  /-- Value of `bpftrace.pid()`. -/
  pid : Int
  get_pid_exe : Int → Str
  path_for_pid_mountns : Int → Str → Str
  /-- The path resolver; the second argument is the process id of the two-argument call
  of the usdt block, `none` for the one-argument call of the uprobe block. -/
  resolve_binary_path : Str → Option Int → List Str
  /-- Value of `bpftrace.extract_func_symbols_from_path`: one symbol per line. -/
  extract_func_symbols_from_path : Str → Str
  probes_for_pid : Int → List usdt_probe_entry
  probes_for_path : Str → List usdt_probe_entry
  /-- The entries `readdir` yields for a directory, `none` when `opendir` fails. -/
  opendir : Str → Option (List Str)
  /-- The content of a file, `none` when the stream fails to open. -/
  open_file : Str → Option Str
  /-- Value of `strerror(errno)` after the failed open of the kprobe file. -/
  strerror_errno : Str
  bt_verbose : Bool

/-- Source `kprobe_path`. -/
def kprobe_path : Str := "/sys/kernel/debug/tracing/available_filter_functions".toList

/-- Source `tp_path`. -/
def tp_path : Str := "/sys/kernel/debug/tracing/events".toList

/-! ## The functions of `list.cpp` -/

/-- Source `search_probe`: `true` means that the probe does NOT match and is skipped. -/
def search_probe (probe : Str) (re : Regex) : Bool :=
  match re.search probe with
  | some true => false
  | some false => true
  | none => true

/-- Source `list_dir`: appends the entries of a directory, nothing when it cannot be
opened. -/
def list_dir (env : Env) (path : Str) (files : List Str) : List Str :=
  match env.opendir path with
  | none => files
  | some names => files ++ names

/-- Source `list_probes_from_list`; `stage` records which call wrote the line. -/
def list_probes_from_list (stage : Stage) (probes_list : List ProbeListItem)
    (probetype search : Str) (re : Regex) : List Event :=
  probes_list.filterMap fun probeListItem =>
    let probe := probetype ++ ":".toList ++ probeListItem.path ++ ":".toList
    if !search.isEmpty && search_probe probe re then none
    else some (Event.cout stage probe)

/-- The value of `s.substr(0, s.find(c) + 1)`: the string up to and including its first
`c`; empty when there is none (`npos + 1` wraps to `0`). -/
def through_first (c : Char) (s : Str) : Str :=
  match from_first c s with
  | [] => []
  | _ :: _ => before_first c s ++ [c]

/-- The header loop of `print_tracepoint_args`,
`do { getline(format_file, line); } while (line.length() > 0);`
with a bound on the number of rounds; `none` when the bound is reached. -/
def skip_header : Nat → IStream → Str → Option (IStream × Str)
  | 0, _, _ => none
  | n + 1, s, line =>
    let r := getline s line
    if r.2.length > 0 then skip_header n r.1 r.2 else some r

/-- The body of the second loop of `print_tracepoint_args` over the lines it reads; a
`std::regex_error` while matching ends the function. -/
def field_lines (re : Regex) : List Str → List Event
  | [] => []
  | line :: rest =>
    match re.full line with
    | none => []
    | some true =>
      Event.cout Stage.tracepoint_args
        ("    ".toList ++ through_first ';' (after_first ':' line)) :: field_lines re rest
    | some false => field_lines re rest

/-- The pattern of `print_tracepoint_args`. -/
def field_pattern : Str := "^\tfield:.*;$".toList

/-- Source `print_tracepoint_args`; `fuel` bounds the rounds of the header loop. -/
def print_tracepoint_args (env : Env) (fuel : Nat) (category event : Str) : Run :=
  let format_file_path :=
    tp_path ++ "/".toList ++ category ++ "/".toList ++ event ++ "/format".toList
  match std_regex env.regex_ext field_pattern with
  | none => { trace := [], ctl := Ctl.throw }
  | some re =>
    match env.open_file format_file_path with
    | none =>
      Run.emit [Event.cerr
        ("ERROR: tracepoint format file not found: ".toList ++ format_file_path)]
    | some content =>
      match skip_header fuel (IStream.opened content) [] with
      | none => { trace := [], ctl := Ctl.hang }
      | some (st, line) =>
        Run.emit (field_lines re (getline_loop (st.buf.length + 1) st line))

/-- The alias replacement at the start of `list_probes`: `regex_search` with `":.*"`
succeeds exactly when the string has a colon, at the first one. Returns `probe_name`
and the rewritten `search`. -/
def normalize (probetypeName : Str → Str) (search_input : Str) : Str × Str :=
  if contains_char ':' search_input then
    let probe_name := probetypeName (before_first ':' search_input)
    (probe_name, probe_name ++ from_first ':' search_input)
  else ([], search_input)

/-- The translation loop of `list_probes`. -/
def glob_body : Str → Str
  | [] => []
  | c :: cs =>
    (if c == '*' then ".*".toList else if c == '?' then ['.'] else [c]) ++ glob_body cs

/-- The string `s` that `list_probes` compiles. -/
def search_pattern (search : Str) : Str := '^' :: (glob_body search ++ ['$'])

/-- The symbol loop of the uprobe block. -/
def uprobe_symbols (env : Env) (absolute_exe : Str) (show_all : Bool) (search : Str)
    (re : Regex) : List Event :=
  Event.extract_func_symbols_from_path absolute_exe ::
    (getlines (env.extract_func_symbols_from_path absolute_exe)).filterMap fun line =>
      let probe := "uprobe:".toList ++ absolute_exe ++ ":".toList ++ line
      if show_all || search.isEmpty || !search_probe probe re then
        some (Event.cout Stage.uprobe probe)
      else none

/-- The uprobe block of `list_probes`. -/
def uprobe_block (env : Env) (probe_name search : Str) (re : Regex) : Run :=
  if env.pid > 0 then
    let executable := env.get_pid_exe env.pid
    let absolute_exe := env.path_for_pid_mountns env.pid executable
    Run.emit (if !executable.isEmpty then uprobe_symbols env absolute_exe false search re
      else [])
  else if probe_name = "uprobe".toList then
    let rest := after_first ':' search
    let show_all := !contains_char ':' rest
    let executable := before_first ':' rest
    match env.resolve_binary_path executable none with
    | [] =>
      { trace := [Event.resolve_binary_path executable none,
          Event.cerr ("uprobe target '".toList ++ executable ++
            "' does not exist or is not executable".toList)],
        ctl := Ctl.ret }
    | [absolute_exe] =>
      Run.emit (Event.resolve_binary_path executable none ::
        (if !executable.isEmpty then uprobe_symbols env absolute_exe show_all search re
          else []))
    | p :: q :: ps =>
      { trace := [Event.resolve_binary_path executable none,
          Event.cerr ("path '".toList ++ executable ++
            "' must refer to a unique binary but matched ".toList ++
            (Nat.repr (p :: q :: ps).length).toList)],
        ctl := Ctl.ret }
  else Run.emit []

/-- The identifier of a USDT probe. -/
def usdt_line (u : usdt_probe_entry) : Str :=
  "usdt:".toList ++ u.path ++ ":".toList ++ u.provider ++ ":".toList ++ u.name

/-- The output loop of the usdt block. -/
def usdt_emit (usdt_probes : List usdt_probe_entry) (usdt_path_list : Bool) (search : Str)
    (re : Regex) : List Event :=
  usdt_probes.filterMap fun usdt_probe =>
    let probe := usdt_line usdt_probe
    if usdt_path_list || search.isEmpty || !search_probe probe re then
      some (Event.cout Stage.usdt probe)
    else none

/-- The usdt block of `list_probes`. -/
def usdt_block (env : Env) (probe_name search : Str) (re : Regex) : Run :=
  if env.pid > 0 then
    Run.emit (Event.probes_for_pid env.pid ::
      usdt_emit (env.probes_for_pid env.pid) false search re)
  else if probe_name = "usdt".toList then
    let rest := after_first ':' search
    let usdt_path_list := !contains_char ':' rest
    let usdt_path := before_first ':' rest
    match env.resolve_binary_path usdt_path (some env.pid) with
    | [] =>
      { trace := [Event.resolve_binary_path usdt_path (some env.pid),
          Event.cerr ("usdt target '".toList ++ usdt_path ++
            "' does not exist or is not executable".toList)],
        ctl := Ctl.ret }
    | [p] =>
      Run.emit (Event.resolve_binary_path usdt_path (some env.pid) ::
        Event.probes_for_path p ::
        usdt_emit (env.probes_for_path p) usdt_path_list search re)
    | p :: q :: ps =>
      { trace := [Event.resolve_binary_path usdt_path (some env.pid),
          Event.cerr ("usdt target '".toList ++ usdt_path ++
            "' must refer to a unique binary but matched ".toList ++
            (Nat.repr (p :: q :: ps).length).toList)],
        ctl := Ctl.ret }
  else Run.emit []

/-- The names both tracepoint loops pass over. -/
def skipped_entry (name : Str) : Bool :=
  name == ".".toList || name == "..".toList || name == "enable".toList ||
    name == "filter".toList

/-- The inner loop of the tracepoint block, over the entries of one category. -/
def tracepoint_events (env : Env) (fuel : Nat) (search : Str) (re : Regex) (cat : Str) :
    List Str → Run
  | [] => Run.emit []
  | event :: rest =>
    if skipped_entry event then tracepoint_events env fuel search re cat rest
    else
      let probe := "tracepoint:".toList ++ cat ++ ":".toList ++ event
      if !search.isEmpty && search_probe probe re then
        tracepoint_events env fuel search re cat rest
      else
        ((Run.emit [Event.cout Stage.tracepoint probe]).andThen
          (if env.bt_verbose then print_tracepoint_args env fuel cat event
            else Run.emit [])).andThen
          (tracepoint_events env fuel search re cat rest)

/-- The outer loop of the tracepoint block, over the entries of the root. -/
def tracepoint_cats (env : Env) (fuel : Nat) (search : Str) (re : Regex) : List Str → Run
  | [] => Run.emit []
  | cat :: rest =>
    if skipped_entry cat then tracepoint_cats env fuel search re rest
    else
      (tracepoint_events env fuel search re cat
        (list_dir env (tp_path ++ "/".toList ++ cat) [])).andThen
        (tracepoint_cats env fuel search re rest)

/-- The tracepoint block of `list_probes`. -/
def tracepoint_block (env : Env) (fuel : Nat) (search : Str) (re : Regex) : Run :=
  tracepoint_cats env fuel search re (list_dir env tp_path [])

/-- The identifier made from one line of the available-functions file. -/
def kprobe_line (line : Str) : Str := "kprobe:".toList ++ before_first ' ' line

/-- The output loop of the kprobe block. -/
def kprobe_emit (search : Str) (re : Regex) (content : Str) : List Event :=
  (getlines content).filterMap fun line =>
    let probe := kprobe_line line
    if !search.isEmpty && search_probe probe re then none
    else some (Event.cout Stage.kprobe probe)

/-- The kprobe block of `list_probes` with the kfunc delegation that ends the
function. -/
def kprobe_block (env : Env) (search : Str) (re : Regex) : Run :=
  match env.open_file kprobe_path with
  | none =>
    { trace := [Event.cerr (env.strerror_errno ++ ": ".toList ++ kprobe_path)],
      ctl := Ctl.ret }
  | some content =>
    { trace := kprobe_emit search re content ++ [Event.display_funcs (!search.isEmpty)],
      ctl := Ctl.ret }

/-- The error line for a pattern that does not compile. -/
def invalid_search : Str := "ERROR: invalid character in search expression.".toList

/-- The part of `list_probes` after the tracepoint block: the short-circuit on a search
that starts with `t`, then the kernel functions. `search[0]` of an empty string is
NUL. -/
def kernel_block (env : Env) (search : Str) (re : Regex) : Run :=
  if search.headD (Char.ofNat 0) == 't' then { trace := [], ctl := Ctl.ret }
  else kprobe_block env search re

/-- Source `list_probes`; `fuel` bounds the header loop of each verbose argument
listing. -/
def list_probes (env : Env) (fuel : Nat) (search_input : Str) : Run :=
  let probe_name := (normalize env.probetypeName search_input).1
  let search := (normalize env.probetypeName search_input).2
  match std_regex env.regex_ext (search_pattern search) with
  | none => { trace := [Event.cerr invalid_search], ctl := Ctl.ret }
  | some re =>
    (Run.emit (list_probes_from_list Stage.software env.SW_PROBE_LIST "software".toList
      search re)).andThen <|
    (Run.emit (list_probes_from_list Stage.hardware env.HW_PROBE_LIST "hardware".toList
      search re)).andThen <|
    (uprobe_block env probe_name search re).andThen <|
    (usdt_block env probe_name search re).andThen <|
    (tracepoint_block env fuel search re).andThen <|
    kernel_block env search re

/-! ## A concrete environment -/

/-- The alias table of the probe types, as far as the examples need it. -/
def demo_probetypeName (s : Str) : Str :=
  if s = "k".toList then "kprobe".toList
  else if s = "u".toList then "uprobe".toList
  else if s = "U".toList then "usdt".toList
  else if s = "t".toList then "tracepoint".toList
  else if s = "s".toList then "software".toList
  else if s = "h".toList then "hardware".toList
  else s

/-- A small machine: three counters, one tracepoint category, an available-functions file
of two lines, one binary. -/
def demo_env : Env :=
  { regex_ext := fun _ => none
    probetypeName := demo_probetypeName
    SW_PROBE_LIST := [{ path := "cpu-clock".toList }, { path := "faults".toList }]
    HW_PROBE_LIST := [{ path := "cycles".toList }]
    pid := 0
    get_pid_exe := fun _ => "/proc/7/exe".toList
    path_for_pid_mountns := fun _ p => "/proc/7/root".toList ++ p
    resolve_binary_path := fun cmd _ => if cmd = "/bin/sh".toList then [cmd] else []
    extract_func_symbols_from_path := fun _ => "main\nreadline\n".toList
    probes_for_pid := fun _ =>
      [{ path := "/proc/7/exe".toList, provider := "libc".toList, name := "setjmp".toList }]
    probes_for_path := fun p =>
      [{ path := p, provider := "sh".toList, name := "start".toList }]
    opendir := fun p =>
      if p = tp_path then some ["sched".toList, ".".toList, "..".toList]
      else if p = tp_path ++ "/sched".toList then
        some ["sched_switch".toList, "enable".toList, "filter".toList]
      else none
    open_file := fun p =>
      if p = kprobe_path then some "do_exit\ndo_exit [some_module]\n".toList
      else none
    strerror_errno := "No such file or directory".toList
    bt_verbose := false }

/-! ## Definitions used to state the properties -/

/-- The term a character of the search string turns into. -/
def term_of (c : Char) : Term :=
  if c == '*' then Term.atom Atom.any true
  else if c == '?' then Term.atom Atom.any false
  else if c == '.' then Term.atom Atom.any false
  else if c == '^' then Term.bol
  else if c == '$' then Term.eol
  else Term.atom (Atom.chr c) false

/-- Glob matching as the specification words it: the whole identifier is consumed,
`*` stands for any sequence of characters, `?` for exactly one character, and every other
character for itself in either letter case. -/
inductive GlobMatches : Str → Str → Prop where
  | done : GlobMatches [] []
  | star (p pre t : Str) : GlobMatches p t → GlobMatches ('*' :: p) (pre ++ t)
  | one (p : Str) (d : Char) (t : Str) : GlobMatches p t → GlobMatches ('?' :: p) (d :: t)
  | same (c d : Char) (p t : Str) : c ≠ '*' → c ≠ '?' → d.toLower = c.toLower →
      GlobMatches p t → GlobMatches (c :: p) (d :: t)

/-- Whether `list_probes`, searching for `search`, lets `probe` pass its pattern test;
`none` when the pattern does not compile. -/
def pattern_accepts (ext : Str → Option Regex) (search probe : Str) : Option Bool :=
  (std_regex ext (search_pattern search)).map (fun re => !search_probe probe re)

/-- The characters of the search strings of the glob property: letters, digits, `_`,
`:`, and the two wildcards. -/
def glob_alphabet (c : Char) : Bool :=
  c.isAlpha || c.isDigit || c == '_' || c == ':' || c == '*' || c == '?'

/-- A character that is neither a wildcard of the search language nor special in the
pattern grammar. -/
def literal_char (c : Char) : Bool :=
  !(c == '*' || c == '?' || c == '.' || c == '^' || c == '$' || c == '\n' || c == '\\' ||
    c == '[' || c == Char.ofNat 0)

/-- An environment whose available-functions file has two names that differ in letter
case only. -/
def case_env : Env :=
  { demo_env with
    open_file := fun p =>
      if p = kprobe_path then some "do_exit\nDO_EXIT\n".toList else none }

/-- The parsed form of the pattern of `print_tracepoint_args`. -/
def field_re : GrepRegex :=
  [[Term.bol, Term.atom (Atom.chr '\t') false, Term.atom (Atom.chr 'f') false,
    Term.atom (Atom.chr 'i') false, Term.atom (Atom.chr 'e') false,
    Term.atom (Atom.chr 'l') false, Term.atom (Atom.chr 'd') false,
    Term.atom (Atom.chr ':') false, Term.atom Atom.any true,
    Term.atom (Atom.chr ';') false, Term.eol]]

/-- An environment in which the format file of `sched:sched_switch` is cut off inside
its first line. -/
def hang_env : Env :=
  { demo_env with
    bt_verbose := true
    open_file := fun p =>
      if p = tp_path ++ "/sched/sched_switch/format".toList then
        some "name: sched_switch".toList
      else none }

/-- The probe identifiers written to standard output: every line except the argument
lines of the verbose mode. -/
def identifier_lines : List Event → List Str
  | [] => []
  | Event.cout st l :: es =>
    if st = Stage.tracepoint_args then identifier_lines es else l :: identifier_lines es
  | _ :: es => identifier_lines es

/-- An event of a block that only writes: a line of one of the stages `S` on standard
output, a line on standard error, or the delegation to the kernel-function provider. -/
def plain_output (S : List Stage) (e : Event) : Prop :=
  (∃ st l, st ∈ S ∧ e = Event.cout st l) ∨ (∃ l, e = Event.cerr l) ∨
    (∃ b, e = Event.display_funcs b)

/-- The entries of a directory as `list_dir` reports them. -/
def dir_entries (env : Env) (path : Str) : List Str := (env.opendir path).getD []

/-- An entry the tracepoint scan keeps: none of `.`, `..`, `enable`, `filter`. -/
def kept_entry (name : Str) : Bool :=
  decide (name ∉ [".".toList, "..".toList, "enable".toList, "filter".toList])

/-- The tracepoint identifiers of a directory tree, as the specification lists them:
for every kept category of the root, in listing order, every kept event of its
directory, in listing order. -/
def tracepoint_identifiers (env : Env) : List Str :=
  ((dir_entries env tp_path).filter kept_entry).flatMap fun cat =>
    ((dir_entries env (tp_path ++ "/".toList ++ cat)).filter kept_entry).map fun event =>
      "tracepoint:".toList ++ cat ++ ":".toList ++ event

/-- The compiled form of the pattern of an empty search, `^$`. -/
def empty_re : Regex := Regex.ofGrep [[Term.bol, Term.eol]]

/-- An environment whose available-functions file separates the module annotation with a
tab. -/
def tab_env : Env :=
  { demo_env with
    open_file := fun p =>
      if p = kprobe_path then some "do_exit\t[some_module]\n".toList else none }

/-- The small machine, asked about process 7. -/
def pid_env : Env := { demo_env with pid := 7 }


/-! ## Facts about the string helpers -/

theorem before_append_from (c : Char) (s : Str) : before_first c s ++ from_first c s = s := by
  induction s with
  | nil => rfl
  | cons d s ih =>
    by_cases h : (d == c) = true
    · simp [before_first, from_first, h]
    · simp [before_first, from_first, h, ih]

theorem from_first_eq_nil (c : Char) (s : Str) :
    from_first c s = [] ↔ contains_char c s = false := by
  induction s with
  | nil => simp [from_first, contains_char]
  | cons d s ih =>
    by_cases h : (d == c) = true
    · simp [from_first, contains_char, h]
    · simp only [contains_char] at ih
      simp [from_first, contains_char, h, ih]

theorem contains_char_iff (c : Char) (s : Str) : contains_char c s = true ↔ c ∈ s := by
  simp [contains_char, List.any_eq_true]

theorem before_first_of_not_mem (c : Char) (s : Str) (h : c ∉ s) : before_first c s = s := by
  induction s with
  | nil => rfl
  | cons d s ih =>
    have hd : ¬ (d == c) = true := by
      intro hdc; exact h (by simp [beq_iff_eq.mp hdc])
    have hs : c ∉ s := fun hm => h (List.mem_cons_of_mem _ hm)
    simp [before_first, hd, ih hs]

theorem before_first_append_cons (c : Char) (a b : Str) (h : c ∉ a) :
    before_first c (a ++ c :: b) = a := by
  induction a with
  | nil => simp [before_first]
  | cons d a ih =>
    have hd : ¬ (d == c) = true := by
      intro hdc; exact h (by simp [beq_iff_eq.mp hdc])
    have hs : c ∉ a := fun hm => h (List.mem_cons_of_mem _ hm)
    simp [before_first, hd, ih hs]

theorem from_first_append_cons (c : Char) (a b : Str) (h : c ∉ a) :
    from_first c (a ++ c :: b) = c :: b := by
  induction a with
  | nil => simp [from_first]
  | cons d a ih =>
    have hd : ¬ (d == c) = true := by
      intro hdc; exact h (by simp [beq_iff_eq.mp hdc])
    have hs : c ∉ a := fun hm => h (List.mem_cons_of_mem _ hm)
    simp [from_first, hd, ih hs]

theorem after_first_append_cons (c : Char) (a b : Str) (h : c ∉ a) :
    after_first c (a ++ c :: b) = b := by
  simp [after_first, from_first_append_cons c a b h]

/-- Rewriting the probe type of a search whose type is already canonical changes
nothing. -/
theorem normalize_fixed (ptn : Str → Str) (s : Str)
    (h : ptn (before_first ':' s) = before_first ':' s) : (normalize ptn s).2 = s := by
  unfold normalize
  split
  · simp [h, before_append_from]
  · rfl

/-- The alias replacement on a string with a colon. -/
theorem normalize_split (ptn : Str → Str) (pre rest : Str) (h : ':' ∉ pre) :
    normalize ptn (pre ++ ':' :: rest) = (ptn pre, ptn pre ++ ':' :: rest) := by
  have hc : contains_char ':' (pre ++ ':' :: rest) = true := by
    rw [contains_char_iff]; simp
  simp [normalize, hc, before_first_append_cons _ _ _ h, from_first_append_cons _ _ _ h]

theorem normalize_nil (ptn : Str → Str) : normalize ptn [] = ([], []) := by
  simp [normalize, contains_char]


/-! ## The translated pattern always parses -/

theorem glob_body_append (a b : Str) : glob_body (a ++ b) = glob_body a ++ glob_body b := by
  induction a with
  | nil => rfl
  | cons c a ih => simp [glob_body, ih]

theorem search_pattern_eq (search : Str) :
    search_pattern search = glob_body ('^' :: (search ++ ['$'])) := by
  simp [search_pattern, glob_body, glob_body_append]

theorem foldl_parse_glob (s : Str) (acc : List Term) :
    (glob_body s).foldl parse_step (some acc) = some ((s.map term_of).reverse ++ acc) := by
  induction s generalizing acc with
  | nil => rfl
  | cons c s ih =>
    by_cases h1 : c = '*'
    · subst h1
      simp [glob_body, parse_step, ih, term_of]
    · by_cases h2 : c = '?'
      · subst h2
        simp [glob_body, parse_step, ih, term_of]
      · by_cases h3 : c = '.'
        · subst h3
          simp [glob_body, parse_step, ih, term_of]
        · by_cases h4 : c = '^'
          · subst h4
            simp [glob_body, parse_step, ih, term_of]
          · by_cases h5 : c = '$'
            · subst h5
              simp [glob_body, parse_step, ih, term_of]
            · simp [glob_body, parse_step, ih, term_of, h1, h2, h3, h4, h5]

theorem parse_alt_glob (s : Str) : parse_alt (glob_body s) = some (s.map term_of) := by
  simp [parse_alt, foldl_parse_glob]

theorem split_alts_ne_nil (s : Str) : split_alts s ≠ [] := by
  cases s with
  | nil => simp [split_alts]
  | cons c cs =>
    simp only [split_alts]
    split
    · simp
    · split <;> simp

theorem split_alts_of_not_mem (s : Str) (h : '\n' ∉ s) : split_alts s = [s] := by
  induction s with
  | nil => rfl
  | cons c s ih =>
    have hc : c ≠ '\n' := fun e => h (by simp [e])
    have hs : '\n' ∉ s := fun hm => h (List.mem_cons_of_mem _ hm)
    have hc2 : ¬ c = Char.ofNat 10 := hc
    simp [split_alts, ih hs, hc2]

theorem split_alts_glob (s : Str) : split_alts (glob_body s) = (split_alts s).map glob_body := by
  induction s with
  | nil => rfl
  | cons c s ih =>
    by_cases h1 : c = '*'
    · subst h1
      have e : glob_body ('*' :: s) = '.' :: '*' :: glob_body s := by simp [glob_body]
      rw [e]
      simp only [split_alts, ih]
      cases hs : split_alts s with
      | nil => exact absurd hs (split_alts_ne_nil s)
      | cons a as => simp [glob_body]
    · by_cases h2 : c = '?'
      · subst h2
        have e : glob_body ('?' :: s) = '.' :: glob_body s := by simp [glob_body]
        rw [e]
        simp only [split_alts, ih]
        cases hs : split_alts s with
        | nil => exact absurd hs (split_alts_ne_nil s)
        | cons a as => simp [glob_body]
      · have e : glob_body (c :: s) = c :: glob_body s := by simp [glob_body, h1, h2]
        rw [e]
        simp only [split_alts, ih]
        cases hs : split_alts s with
        | nil => exact absurd hs (split_alts_ne_nil s)
        | cons a as =>
          by_cases h3 : c = Char.ofNat 10
          · subst h3; simp [glob_body]
          · simp [glob_body, h1, h2, h3]

theorem parse_alts_glob (l : List Str) :
    parse_alts (l.map glob_body) = some (l.map (fun a => a.map term_of)) := by
  induction l with
  | nil => rfl
  | cons a l ih => simp [parse_alts, parse_alt_glob, ih]

/-- The pattern built from a search string is never rejected by the parser of the
modelled grammar: each alternative is the list of the terms of its characters. -/
theorem grep_parse_search_pattern (search : Str) :
    grep_parse (search_pattern search) =
      some ((split_alts ('^' :: (search ++ ['$']))).map (fun a => a.map term_of)) := by
  rw [search_pattern_eq, grep_parse, split_alts_glob, parse_alts_glob]

theorem grep_parse_one_line (search : Str) (h : '\n' ∉ search) :
    grep_parse (search_pattern search) =
      some [Term.bol :: (search.map term_of ++ [Term.eol])] := by
  rw [grep_parse_search_pattern, split_alts_of_not_mem]
  · simp [term_of]
  · simp [h]


/-! ## Matching an anchored alternative -/

theorem search_from_bol_false (ts : List Term) (s : Str) :
    search_from [Term.bol :: ts] false s = false := by
  induction s with
  | nil => simp [search_from, match_terms]
  | cons c s ih => simp [search_from, match_terms, ih]

/-- A pattern that is one alternative starting with `^` can only match at the start of
the input. -/
theorem grep_search_bol (ts : List Term) (s : Str) :
    grep_search [Term.bol :: ts] s = match_terms false ts true s := by
  cases s with
  | nil => simp [grep_search, search_from, match_terms]
  | cons c s => simp [grep_search, search_from, match_terms, search_from_bol_false]

theorem star_loop_true_of (ok : Char → Bool) (k : Bool → Str → Bool) (pre post : Str)
    (hpre : ∀ x ∈ pre, ok x = true) (hk : ∀ b, k b post = true) (b : Bool) :
    star_loop ok k b (pre ++ post) = true := by
  induction pre generalizing b with
  | nil =>
    cases post with
    | nil => simpa [star_loop] using hk b
    | cons c s => simp [star_loop, hk b]
  | cons x pre ih =>
    have hx : ok x = true := hpre x (by simp)
    have hrest : ∀ y ∈ pre, ok y = true := fun y hy => hpre y (List.mem_cons_of_mem _ hy)
    simp [star_loop, hx, ih hrest false]

theorem star_loop_split (ok : Char → Bool) (k : Bool → Str → Bool) (b : Bool) (s : Str)
    (h : star_loop ok k b s = true) :
    ∃ pre post b2, s = pre ++ post ∧ (∀ x ∈ pre, ok x = true) ∧ k b2 post = true := by
  induction s generalizing b with
  | nil => exact ⟨[], [], b, rfl, by simp, by simpa [star_loop] using h⟩
  | cons c s ih =>
    simp only [star_loop, Bool.or_eq_true, Bool.and_eq_true] at h
    rcases h with h | ⟨hc, h⟩
    · exact ⟨[], c :: s, b, rfl, by simp, h⟩
    · obtain ⟨pre, post, b2, hs, hpre, hk⟩ := ih false h
      refine ⟨c :: pre, post, b2, by simp [hs], ?_, hk⟩
      intro x hx
      rcases List.mem_cons.mp hx with rfl | hx
      · exact hc
      · exact hpre x hx


theorem term_of_plain (c : Char) (h1 : c ≠ '*') (h2 : c ≠ '?') (h3 : c ≠ '.') (h4 : c ≠ '^')
    (h5 : c ≠ '$') : term_of c = Term.atom (Atom.chr c) false := by
  simp [term_of, h1, h2, h3, h4, h5]

theorem glob_of_match (p : Str) (hp : ∀ c ∈ p, c ≠ '.' ∧ c ≠ '^' ∧ c ≠ '$') (b : Bool) (s : Str)
    (h : match_terms false (p.map term_of ++ [Term.eol]) b s = true) : GlobMatches p s := by
  induction p generalizing b s with
  | nil =>
    simp [match_terms] at h
    subst h
    exact GlobMatches.done
  | cons c p ih =>
    have hp2 : ∀ c ∈ p, c ≠ '.' ∧ c ≠ '^' ∧ c ≠ '$' :=
      fun x hx => hp x (List.mem_cons_of_mem _ hx)
    obtain ⟨h3, h4, h5⟩ := hp c (by simp)
    by_cases h1 : c = '*'
    · subst h1
      have e : term_of '*' = Term.atom Atom.any true := by simp [term_of]
      simp only [List.map_cons, List.cons_append, e, match_terms] at h
      obtain ⟨pre, post, b2, hs, _, hk⟩ := star_loop_split _ _ _ _ h
      subst hs
      exact GlobMatches.star p pre post (ih hp2 b2 post hk)
    · by_cases h2 : c = '?'
      · subst h2
        have e : term_of '?' = Term.atom Atom.any false := by simp [term_of]
        simp only [List.map_cons, List.cons_append, e, match_terms] at h
        cases s with
        | nil => simp at h
        | cons d t =>
          simp only [Bool.and_eq_true] at h
          exact GlobMatches.one p d t (ih hp2 false t h.2)
      · rw [List.map_cons, term_of_plain c h1 h2 h3 h4 h5] at h
        simp only [List.cons_append, match_terms] at h
        cases s with
        | nil => simp at h
        | cons d t =>
          simp only [Bool.and_eq_true, Atom.accepts, beq_iff_eq] at h
          exact GlobMatches.same c d p t h1 h2 h.1 (ih hp2 false t h.2)

theorem match_of_glob (p s : Str) (h : GlobMatches p s)
    (hp : ∀ c ∈ p, c ≠ '.' ∧ c ≠ '^' ∧ c ≠ '$') (hs : ∀ d ∈ s, d ≠ Char.ofNat 0) (b : Bool) :
    match_terms false (p.map term_of ++ [Term.eol]) b s = true := by
  induction h generalizing b with
  | done => simp [match_terms]
  | star p pre t _ ih =>
    have hp2 : ∀ c ∈ p, c ≠ '.' ∧ c ≠ '^' ∧ c ≠ '$' :=
      fun x hx => hp x (List.mem_cons_of_mem _ hx)
    have e : term_of '*' = Term.atom Atom.any true := by simp [term_of]
    simp only [List.map_cons, List.cons_append, e, match_terms]
    apply star_loop_true_of
    · intro x hx
      have := hs x (by simp [hx])
      simp [Atom.accepts, this]
    · intro b2
      exact ih hp2 (fun d hd => hs d (by simp [hd])) b2
  | one p d t _ ih =>
    have hp2 : ∀ c ∈ p, c ≠ '.' ∧ c ≠ '^' ∧ c ≠ '$' :=
      fun x hx => hp x (List.mem_cons_of_mem _ hx)
    have e : term_of '?' = Term.atom Atom.any false := by simp [term_of]
    have hd := hs d (by simp)
    simp only [List.map_cons, List.cons_append, e, match_terms, Bool.and_eq_true]
    exact ⟨by simp [Atom.accepts, hd], ih hp2 (fun x hx => hs x (by simp [hx])) false⟩
  | same c d p t h1 h2 hcd _ ih =>
    have hp2 : ∀ c ∈ p, c ≠ '.' ∧ c ≠ '^' ∧ c ≠ '$' :=
      fun x hx => hp x (List.mem_cons_of_mem _ hx)
    obtain ⟨h3, h4, h5⟩ := hp c (by simp)
    rw [List.map_cons, term_of_plain c h1 h2 h3 h4 h5]
    simp only [List.cons_append, match_terms, Bool.and_eq_true]
    exact ⟨by simp [Atom.accepts, hcd], ih hp2 (fun x hx => hs x (by simp [hx])) false⟩

theorem unmodelled_glob_body (s : Str) : unmodelled (glob_body s) = unmodelled s := by
  induction s with
  | nil => rfl
  | cons c s ih =>
    simp only [unmodelled] at ih
    by_cases h1 : c = '*'
    · subst h1
      simp [unmodelled, glob_body, ih]
    · by_cases h2 : c = '?'
      · subst h2
        simp [unmodelled, glob_body, ih]
      · simp [unmodelled, glob_body, h1, h2, ih]

theorem unmodelled_search_pattern (s : Str) : unmodelled (search_pattern s) = unmodelled s := by
  rw [search_pattern_eq, unmodelled_glob_body]
  simp [unmodelled]

theorem search_probe_ofGrep (re : GrepRegex) (probe : Str) :
    search_probe probe (Regex.ofGrep re) = !grep_search re probe := by
  simp only [search_probe, Regex.ofGrep]
  cases grep_search re probe <;> rfl

/-- The pattern test of a search within the modelled grammar and without line feed. -/
theorem pattern_accepts_one_line (ext : Str → Option Regex) (search probe : Str)
    (hm : unmodelled search = false) (hn : '\n' ∉ search) :
    pattern_accepts ext search probe =
      some (match_terms false (search.map term_of ++ [Term.eol]) true probe) := by
  simp [pattern_accepts, std_regex, unmodelled_search_pattern, hm, grep_parse_one_line _ hn,
    search_probe_ofGrep, grep_search_bol]

/-! ## The pattern test -/

theorem glob_alphabet_plain (c : Char) (h : glob_alphabet c = true) :
    c ≠ '.' ∧ c ≠ '^' ∧ c ≠ '$' ∧ c ≠ '\n' ∧ c ≠ '\\' ∧ c ≠ '[' ∧ c ≠ Char.ofNat 0 := by
  refine ⟨?_, ?_, ?_, ?_, ?_, ?_, ?_⟩ <;>
    · intro e
      subst e
      exact absurd h (by decide)

theorem literal_char_plain (c : Char) (h : literal_char c = true) :
    c ≠ '*' ∧ c ≠ '?' ∧ c ≠ '.' ∧ c ≠ '^' ∧ c ≠ '$' ∧ c ≠ '\n' ∧ c ≠ '\\' ∧ c ≠ '[' ∧
      c ≠ Char.ofNat 0 := by
  refine ⟨?_, ?_, ?_, ?_, ?_, ?_, ?_, ?_, ?_⟩ <;>
    · intro e
      subst e
      exact absurd h (by decide)

theorem unmodelled_eq_false (s : Str)
    (h : ∀ c ∈ s, c ≠ '\\' ∧ c ≠ '[' ∧ c ≠ Char.ofNat 0) : unmodelled s = false := by
  simp only [unmodelled, List.any_eq_false]
  intro c hc
  obtain ⟨h1, h2, h3⟩ := h c hc
  simp [h1, h2, h3]

/-- The pattern test on a search over the glob alphabet is glob matching. -/
theorem pattern_accepts_glob (ext : Str → Option Regex) (search ident : Str)
    (hs : ∀ c ∈ search, c ≠ '.' ∧ c ≠ '^' ∧ c ≠ '$' ∧ c ≠ '\n' ∧ c ≠ '\\' ∧ c ≠ '[' ∧
      c ≠ Char.ofNat 0)
    (hi : ∀ d ∈ ident, d ≠ Char.ofNat 0) :
    pattern_accepts ext search ident ≠ none ∧
      (pattern_accepts ext search ident = some true ↔ GlobMatches search ident) := by
  have hm : unmodelled search = false :=
    unmodelled_eq_false search (fun c hc => ⟨(hs c hc).2.2.2.2.1, (hs c hc).2.2.2.2.2.1,
      (hs c hc).2.2.2.2.2.2⟩)
  have hn : '\n' ∉ search := fun hmem => (hs _ hmem).2.2.2.1 rfl
  have hp : ∀ c ∈ search, c ≠ '.' ∧ c ≠ '^' ∧ c ≠ '$' :=
    fun c hc => ⟨(hs c hc).1, (hs c hc).2.1, (hs c hc).2.2.1⟩
  rw [pattern_accepts_one_line ext search ident hm hn]
  refine ⟨by simp, ?_⟩
  constructor
  · intro h
    exact glob_of_match search hp true ident (by simpa using h)
  · intro h
    simp [match_of_glob search ident h hp hi true]

theorem glob_nil (s : Str) : GlobMatches [] s ↔ s = [] := by
  constructor
  · intro h
    cases h
    rfl
  · rintro rfl
    exact GlobMatches.done

theorem glob_star (p s : Str) :
    GlobMatches ('*' :: p) s ↔ ∃ pre t, s = pre ++ t ∧ GlobMatches p t := by
  constructor
  · intro h
    cases h with
    | star _ pre t h => exact ⟨pre, t, rfl, h⟩
    | same _ _ _ _ h1 _ _ _ => exact absurd rfl h1
  · rintro ⟨pre, t, rfl, h⟩
    exact GlobMatches.star p pre t h

theorem glob_one (p s : Str) :
    GlobMatches ('?' :: p) s ↔ ∃ d t, s = d :: t ∧ GlobMatches p t := by
  constructor
  · intro h
    cases h with
    | one _ d t h => exact ⟨d, t, rfl, h⟩
    | same _ _ _ _ _ h2 _ _ => exact absurd rfl h2
  · rintro ⟨d, t, rfl, h⟩
    exact GlobMatches.one p d t h

theorem glob_same (c : Char) (p s : Str) (h1 : c ≠ '*') (h2 : c ≠ '?') :
    GlobMatches (c :: p) s ↔ ∃ d t, s = d :: t ∧ d.toLower = c.toLower ∧ GlobMatches p t := by
  constructor
  · intro h
    cases h with
    | star _ _ _ _ => exact absurd rfl h1
    | one _ _ _ _ => exact absurd rfl h2
    | same _ d _ t _ _ hcd h => exact ⟨d, t, rfl, hcd, h⟩
  · rintro ⟨d, t, rfl, hcd, h⟩
    exact GlobMatches.same c d p t h1 h2 hcd h

theorem glob_literal_append (S p s : Str) (hS : ∀ c ∈ S, c ≠ '*' ∧ c ≠ '?') :
    GlobMatches (S ++ p) s ↔
      ∃ mid rest, s = mid ++ rest ∧ mid.map Char.toLower = S.map Char.toLower ∧
        GlobMatches p rest := by
  induction S generalizing s with
  | nil =>
    constructor
    · intro h
      exact ⟨[], s, rfl, rfl, h⟩
    · rintro ⟨mid, rest, rfl, hmid, h⟩
      simp only [List.map_nil, List.map_eq_nil_iff] at hmid
      subst hmid
      exact h
  | cons c S ih =>
    obtain ⟨h1, h2⟩ := hS c (by simp)
    have hS2 : ∀ x ∈ S, x ≠ '*' ∧ x ≠ '?' := fun x hx => hS x (List.mem_cons_of_mem _ hx)
    rw [List.cons_append, glob_same c (S ++ p) s h1 h2]
    constructor
    · rintro ⟨d, t, rfl, hcd, h⟩
      obtain ⟨mid, rest, rfl, hmid, hr⟩ := (ih t hS2).mp h
      exact ⟨d :: mid, rest, rfl, by simp [hcd, hmid], hr⟩
    · rintro ⟨mid, rest, rfl, hmid, hr⟩
      cases mid with
      | nil => simp at hmid
      | cons d mid =>
        simp only [List.map_cons, List.cons.injEq] at hmid
        exact ⟨d, mid ++ rest, rfl, hmid.1, (ih (mid ++ rest) hS2).mpr ⟨mid, rest, rfl, hmid.2, hr⟩⟩

theorem glob_literal (S ident : Str) (hS : ∀ c ∈ S, c ≠ '*' ∧ c ≠ '?') :
    GlobMatches S ident ↔ ident.map Char.toLower = S.map Char.toLower := by
  have h := glob_literal_append S [] ident hS
  rw [List.append_nil] at h
  rw [h]
  constructor
  · rintro ⟨mid, rest, rfl, hmid, hr⟩
    rw [glob_nil] at hr
    subst hr
    simpa using hmid
  · intro hi
    exact ⟨ident, [], by simp, hi, GlobMatches.done⟩

theorem glob_alloc (ident : Str) :
    GlobMatches "*alloc*".toList ident ↔
      ∃ pre mid post, ident = pre ++ mid ++ post ∧ mid.map Char.toLower = "alloc".toList := by
  have e : "*alloc*".toList = '*' :: ("alloc".toList ++ ['*']) := rfl
  have hlit : ∀ c ∈ "alloc".toList, c ≠ '*' ∧ c ≠ '?' := by decide
  have hlow : "alloc".toList.map Char.toLower = "alloc".toList := by decide
  rw [e, glob_star]
  constructor
  · rintro ⟨pre, t, rfl, h⟩
    obtain ⟨mid, rest, rfl, hmid, _⟩ := (glob_literal_append _ _ _ hlit).mp h
    exact ⟨pre, mid, rest, by simp, by rw [hmid, hlow]⟩
  · rintro ⟨pre, mid, post, rfl, hmid⟩
    refine ⟨pre, mid ++ post, by simp, ?_⟩
    refine (glob_literal_append _ _ _ hlit).mpr ⟨mid, post, rfl, by rw [hmid, hlow], ?_⟩
    have := GlobMatches.star [] post [] GlobMatches.done
    simpa using this

theorem glob_qpu (ident : Str) :
    GlobMatches "?pu".toList ident ↔
      ∃ c d e, ident = [c, d, e] ∧ d.toLower = 'p' ∧ e.toLower = 'u' := by
  have e : "?pu".toList = '?' :: ['p', 'u'] := rfl
  rw [e, glob_one]
  constructor
  · rintro ⟨c, t, rfl, h⟩
    rw [glob_same _ _ _ (by decide) (by decide)] at h
    obtain ⟨d, t1, rfl, hp, h⟩ := h
    rw [glob_same _ _ _ (by decide) (by decide)] at h
    obtain ⟨e, t2, rfl, hu, h⟩ := h
    rw [glob_nil] at h
    subst h
    exact ⟨c, d, e, rfl, by rw [hp]; decide, by rw [hu]; decide⟩
  · rintro ⟨c, d, e, rfl, hp, hu⟩
    refine ⟨c, [d, e], rfl, ?_⟩
    refine GlobMatches.same 'p' d _ _ (by decide) (by decide) (by rw [hp]; decide) ?_
    exact GlobMatches.same 'u' e _ _ (by decide) (by decide) (by rw [hu]; decide)
      GlobMatches.done


theorem match_literal (S : Str) (hS : ∀ c ∈ S, literal_char c = true) (b : Bool) (ident : Str) :
    match_terms false (S.map term_of ++ [Term.eol]) b ident = true ↔
      ident.map Char.toLower = S.map Char.toLower := by
  constructor
  · intro h
    have hp : ∀ c ∈ S, c ≠ '.' ∧ c ≠ '^' ∧ c ≠ '$' := fun c hc =>
      ⟨(literal_char_plain c (hS c hc)).2.2.1, (literal_char_plain c (hS c hc)).2.2.2.1,
        (literal_char_plain c (hS c hc)).2.2.2.2.1⟩
    have hw : ∀ c ∈ S, c ≠ '*' ∧ c ≠ '?' := fun c hc =>
      ⟨(literal_char_plain c (hS c hc)).1, (literal_char_plain c (hS c hc)).2.1⟩
    exact (glob_literal S ident hw).mp (glob_of_match S hp b ident h)
  · intro h
    induction S generalizing b ident with
    | nil =>
      simp only [List.map_nil, List.map_eq_nil_iff] at h
      subst h
      simp [match_terms]
    | cons c S ih =>
      cases ident with
      | nil => simp at h
      | cons d t =>
        simp only [List.map_cons, List.cons.injEq] at h
        obtain ⟨h1, h2, h3, h4, h5, _⟩ := literal_char_plain c (hS c (by simp))
        rw [List.map_cons, term_of_plain c h1 h2 h3 h4 h5]
        simp only [List.cons_append, match_terms, Bool.and_eq_true]
        exact ⟨by simp [Atom.accepts, h.1],
          ih (fun x hx => hS x (List.mem_cons_of_mem _ hx)) false t h.2⟩

/-- C1, as stated, fails: the pattern compiled from the identifier `kprobe:do_exit`
(no wildcard) also matches the different identifier `kprobe:DO_EXIT`, and a listing with
that search prints both. -/
theorem exact_search_collision :
    pattern_accepts case_env.regex_ext
        (normalize case_env.probetypeName "kprobe:do_exit".toList).2
        "kprobe:DO_EXIT".toList = some true ∧
      "kprobe:DO_EXIT".toList ≠ "kprobe:do_exit".toList ∧
      stage_lines Stage.kprobe (list_probes case_env 0 "kprobe:do_exit".toList).trace =
        ["kprobe:do_exit".toList, "kprobe:DO_EXIT".toList] := by
  decide

/-- C1, amended: for a search string `S` without wildcard and without a character that
is special in the pattern grammar, whose probe type is already canonical, the pattern
that `list_probes` compiles from `S` matches `S`, and it matches exactly the identifiers
that are equal to `S` up to letter case. -/
theorem exact_search_up_to_case (ext : Str → Option Regex) (ptn : Str → Str) (S : Str)
    (hS : ∀ c ∈ S, literal_char c = true)
    (hty : ptn (before_first ':' S) = before_first ':' S) :
    pattern_accepts ext (normalize ptn S).2 S = some true ∧
      ∀ ident, pattern_accepts ext (normalize ptn S).2 ident = some true ↔
        ident.map Char.toLower = S.map Char.toLower := by
  have hm : unmodelled S = false :=
    unmodelled_eq_false S (fun c hc =>
      ⟨(literal_char_plain c (hS c hc)).2.2.2.2.2.2.1,
        (literal_char_plain c (hS c hc)).2.2.2.2.2.2.2.1,
        (literal_char_plain c (hS c hc)).2.2.2.2.2.2.2.2⟩)
  have hn : '\n' ∉ S := fun hmem => (literal_char_plain _ (hS _ hmem)).2.2.2.2.2.1 rfl
  have key : ∀ ident, pattern_accepts ext (normalize ptn S).2 ident = some true ↔
      ident.map Char.toLower = S.map Char.toLower := by
    intro ident
    rw [normalize_fixed ptn S hty, pattern_accepts_one_line ext S ident hm hn]
    rw [← match_literal S hS true ident]
    simp
  exact ⟨(key S).mpr rfl, key⟩

/-- The amended C1 at the search `kprobe:do_exit`. -/
theorem exact_search_up_to_case_witness :
    (∀ c ∈ "kprobe:do_exit".toList, literal_char c = true) ∧
      demo_probetypeName (before_first ':' "kprobe:do_exit".toList) =
        before_first ':' "kprobe:do_exit".toList ∧
      pattern_accepts (fun _ => none)
        (normalize demo_probetypeName "kprobe:do_exit".toList).2
        "kprobe:do_exit".toList = some true :=
  ⟨by decide, by decide,
    (exact_search_up_to_case (fun _ => none) demo_probetypeName "kprobe:do_exit".toList
      (by decide) (by decide)).1⟩

/-- C2: for a search string over letters, digits, `_`, `:`, `*` and `?` (the string the
translation loop of `list_probes` runs over) and an identifier (a text, so without NUL),
the pattern `^` + translation + `$` compiles, and `search_probe` lets the identifier pass
exactly when the whole identifier matches the glob case-insensitively. In particular the
pattern for `*alloc*` passes exactly the identifiers that contain `alloc` in any letter
case, and the pattern for `?pu` exactly the three-character strings that end in `pu` in
any letter case. -/
theorem glob_pattern_semantics (ext : Str → Option Regex) (ptn : Str → Str)
    (search ident : Str) (hs : ∀ c ∈ search, glob_alphabet c = true)
    (hi : ∀ d ∈ ident, d ≠ Char.ofNat 0) :
    pattern_accepts ext search ident ≠ none ∧
      (pattern_accepts ext search ident = some true ↔ GlobMatches search ident) ∧
      (pattern_accepts ext (normalize ptn "*alloc*".toList).2 ident = some true ↔
        ∃ pre mid post, ident = pre ++ mid ++ post ∧
          mid.map Char.toLower = "alloc".toList) ∧
      (pattern_accepts ext (normalize ptn "?pu".toList).2 ident = some true ↔
        ∃ c d e, ident = [c, d, e] ∧ d.toLower = 'p' ∧ e.toLower = 'u') := by
  have h1 := pattern_accepts_glob ext search ident (fun c hc => glob_alphabet_plain c (hs c hc)) hi
  have h2 := pattern_accepts_glob ext "*alloc*".toList ident
    (fun c hc => glob_alphabet_plain c (by revert c; decide)) hi
  have h3 := pattern_accepts_glob ext "?pu".toList ident
    (fun c hc => glob_alphabet_plain c (by revert c; decide)) hi
  have n2 : (normalize ptn "*alloc*".toList).2 = "*alloc*".toList := rfl
  have n3 : (normalize ptn "?pu".toList).2 = "?pu".toList := rfl
  refine ⟨h1.1, h1.2, ?_, ?_⟩
  · rw [n2, h2.2, glob_alloc]
  · rw [n3, h3.2, glob_qpu]

/-- The glob property at the search `*alloc*` and the identifier `kprobe:__kmALLoc`. -/
theorem glob_pattern_semantics_witness :
    (∀ c ∈ "*alloc*".toList, glob_alphabet c = true) ∧
      (∀ d ∈ "kprobe:__kmALLoc".toList, d ≠ Char.ofNat 0) ∧
      (pattern_accepts (fun _ => none) "*alloc*".toList "kprobe:__kmALLoc".toList = some true ↔
        GlobMatches "*alloc*".toList "kprobe:__kmALLoc".toList) :=
  ⟨by decide, by decide,
    (glob_pattern_semantics (fun _ => none) demo_probetypeName "*alloc*".toList
      "kprobe:__kmALLoc".toList (by decide) (by decide)).2.1⟩

/-! ## Reading lines -/

theorem from_first_head (c : Char) (s : Str) (d : Char) (rest : Str)
    (h : from_first c s = d :: rest) : d = c := by
  induction s with
  | nil => simp [from_first] at h
  | cons x s ih =>
    by_cases hx : (x == c) = true
    · simp [from_first, hx] at h
      rw [← h.1]
      exact beq_iff_eq.mp hx
    · simp [from_first, hx] at h
      exact ih h

theorem from_first_length (c : Char) (s : Str) (d : Char) (rest : Str)
    (h : from_first c s = d :: rest) : rest.length < s.length := by
  have e := before_append_from c s
  rw [h] at e
  have := congrArg List.length e
  simp at this
  omega

theorem file_lines_cons (c : Char) (s : Str) :
    file_lines (c :: s) =
      if c == '\n' then [] :: file_lines s
      else
        match file_lines s with
        | [] => [[c]]
        | l :: ls => (c :: l) :: ls := rfl

theorem file_lines_one (s : Str) (hs : s ≠ []) (h : from_first '\n' s = []) :
    file_lines s = [s] := by
  induction s with
  | nil => exact absurd rfl hs
  | cons c s ih =>
    by_cases hc : (c == '\n') = true
    · simp [from_first, hc] at h
    · simp only [from_first, hc] at h
      cases s with
      | nil => simp [file_lines, hc]
      | cons x s =>
        have := ih (by simp) (by simpa using h)
        rw [file_lines_cons, this]
        simp [hc]

theorem file_lines_split (s : Str) (d : Char) (rest : Str)
    (h : from_first '\n' s = d :: rest) :
    file_lines s = before_first '\n' s :: file_lines rest := by
  induction s with
  | nil => simp [from_first] at h
  | cons c s ih =>
    by_cases hc : (c == '\n') = true
    · simp [from_first, hc] at h
      simp [file_lines, before_first, hc, h.2]
    · simp only [from_first, hc] at h
      have := ih (by simpa using h)
      rw [file_lines_cons, this]
      simp [before_first, hc]

theorem getline_not_good (s : IStream) (line : Str) (h : s.good = false) :
    getline s line = ({ s with failbit := true }, line) := by
  simp [getline, h]

theorem getline_loop_good (n : Nat) (s line : Str) (h : s.length < n) :
    getline_loop n (IStream.opened s) line = file_lines s := by
  induction n generalizing s line with
  | zero => omega
  | succ n ih =>
    cases hf : from_first '\n' s with
    | nil =>
      cases s with
      | nil => simp [getline_loop, getline, IStream.opened, IStream.good, from_first, file_lines]
      | cons c t =>
        rw [file_lines_one (c :: t) (by simp) hf]
        cases n with
        | zero => simp at h
        | succ m =>
          simp [getline_loop, getline, IStream.opened, IStream.good, hf]
    | cons d rest =>
      have hl := from_first_length _ _ _ _ hf
      rw [file_lines_split s d rest hf]
      have := ih rest (before_first '\n' s) (by omega)
      simp only [IStream.opened] at this
      simp [getline_loop, getline, IStream.opened, IStream.good, hf, this]

/-- The loop `while (std::getline(s, line))` over a freshly opened text passes over the
lines of the text, in order. -/
theorem getlines_eq_file_lines (content : Str) : getlines content = file_lines content :=
  getline_loop_good _ content [] (Nat.lt_succ_self _)


theorem before_first_eq_takeWhile (c : Char) (s : Str) :
    before_first c s = s.takeWhile (fun d => d != c) := by
  induction s with
  | nil => rfl
  | cons d s ih =>
    by_cases h : d = c
    · simp [before_first, List.takeWhile_cons, h]
    · simp [before_first, List.takeWhile_cons, h, ih]

theorem filterMap_some {α β : Type} (f : α → β) (l : List α) :
    l.filterMap (fun a => some (f a)) = l.map f := by
  induction l with
  | nil => rfl
  | cons a l ih => simp [List.filterMap_cons, ih]

theorem kprobe_emit_nil (re : Regex) (content : Str) :
    kprobe_emit [] re content =
      (file_lines content).map (fun line =>
        Event.cout Stage.kprobe ("kprobe:".toList ++ line.takeWhile (fun d => d != ' '))) := by
  simp only [kprobe_emit, getlines_eq_file_lines, kprobe_line, before_first_eq_takeWhile]
  exact filterMap_some _ _

/-! ## The header loop of `print_tracepoint_args` -/

theorem skip_header_stuck (fuel : Nat) (s : IStream) (line : Str) (hs : s.good = false)
    (hl : line ≠ []) : skip_header fuel s line = none := by
  induction fuel generalizing s with
  | zero => rfl
  | succ n ih =>
    have hpos : 0 < line.length := List.length_pos.mpr hl
    rw [skip_header, getline_not_good s line hs]
    simp only [gt_iff_lt, hpos, if_true]
    apply ih
    simp [IStream.good]

/-- The header loop never ends on a text that has no empty line and does not end with a
line feed: the last `getline` leaves the stream at its end with a non-empty `line`, and
every later round fails without changing `line`. -/
theorem skip_header_never_returns (content : Str) (hne : content ≠ [])
    (hlines : ∀ l ∈ file_lines content, l ≠ []) (hlast : content.getLast? ≠ some '\n')
    (fuel : Nat) (line : Str) : skip_header fuel (IStream.opened content) line = none := by
  induction fuel generalizing content line with
  | zero => rfl
  | succ n ih =>
    cases hf : from_first '\n' content with
    | nil =>
      have hpos : 0 < content.length := List.length_pos.mpr hne
      rw [skip_header]
      simp only [getline, IStream.opened, IStream.good, hf, Bool.not_false, Bool.and_self,
        if_true, gt_iff_lt, hpos]
      apply skip_header_stuck
      · simp [IStream.good]
      · exact hne
    | cons d rest =>
      have hd : d = '\n' := from_first_head _ _ _ _ hf
      have hsplit := file_lines_split content d rest hf
      have hb : before_first '\n' content ≠ [] := hlines _ (by rw [hsplit]; simp)
      have hpos : 0 < (before_first '\n' content).length := List.length_pos.mpr hb
      have hcont : content = before_first '\n' content ++ d :: rest := by
        rw [← hf, before_append_from]
      have hrest : rest ≠ [] := by
        intro e
        apply hlast
        rw [hcont, e, hd]
        exact List.getLast?_concat _
      rw [skip_header]
      simp only [getline, IStream.opened, IStream.good, hf, Bool.not_false, Bool.and_self,
        if_true, gt_iff_lt, hpos]
      have := ih rest hrest (fun l hl => hlines l (by rw [hsplit]; simp [hl]))
        (by
          intro e
          apply hlast
          obtain ⟨ys, hys⟩ := List.getLast?_eq_some_iff.mp e
          rw [hcont, hys, ← List.cons_append, ← List.append_assoc]
          exact List.getLast?_concat _) (before_first '\n' content)
      simpa [IStream.opened] using this


theorem file_lines_next (content l : Str) (ls : List Str) (h : file_lines content = l :: ls)
    (hls : ls ≠ []) :
    ∃ rest, from_first '\n' content = '\n' :: rest ∧ before_first '\n' content = l ∧
      file_lines rest = ls := by
  cases hf : from_first '\n' content with
  | nil =>
    cases content with
    | nil => simp [file_lines] at h
    | cons c t =>
      rw [file_lines_one (c :: t) (by simp) hf] at h
      simp only [List.cons.injEq] at h
      exact absurd h.2.symm hls
  | cons d rest =>
    have hd : d = '\n' := from_first_head _ _ _ _ hf
    rw [file_lines_split content d rest hf] at h
    simp only [List.cons.injEq] at h
    exact ⟨rest, by rw [hd], h.1, h.2⟩

theorem file_lines_blank_first (content : Str) (body : List Str)
    (h : file_lines content = [] :: body) :
    ∃ rest, content = '\n' :: rest ∧ file_lines rest = body := by
  cases content with
  | nil => simp [file_lines] at h
  | cons c t =>
    rw [file_lines_cons] at h
    by_cases hc : (c == '\n') = true
    · simp only [hc, if_true, List.cons.injEq, true_and] at h
      exact ⟨t, by rw [beq_iff_eq.mp hc], h⟩
    · have hc2 : (c == '\n') = false := by simpa using hc
      rw [hc2] at h
      simp only [Bool.false_eq_true, if_false] at h
      cases hft : file_lines t with
      | nil => rw [hft] at h; simp at h
      | cons l ls => rw [hft] at h; simp at h

/-- The header loop ends at the first empty line, and the second loop then passes over
the lines after it. -/
theorem skip_header_blank (hdr body : List Str) (content line : Str) (fuel : Nat)
    (h : file_lines content = hdr ++ [] :: body) (hhdr : ∀ l ∈ hdr, l ≠ [])
    (hfuel : hdr.length < fuel) :
    ∃ st, skip_header fuel (IStream.opened content) line = some (st, []) ∧
      getline_loop (st.buf.length + 1) st [] = body := by
  induction hdr generalizing content line fuel with
  | nil =>
    obtain ⟨rest, hc, hrest⟩ := file_lines_blank_first content body (by simpa using h)
    cases fuel with
    | zero => omega
    | succ n =>
      refine ⟨IStream.opened rest, ?_, ?_⟩
      · subst hc
        simp [skip_header, getline, IStream.opened, IStream.good, from_first, before_first]
      · rw [← hrest]
        exact getline_loop_good _ rest [] (Nat.lt_succ_self _)
  | cons l hdr ih =>
    cases fuel with
    | zero => omega
    | succ n =>
      obtain ⟨rest, hf, hb, hrest⟩ := file_lines_next content l (hdr ++ [] :: body)
        (by simpa using h) (by simp)
      have hl : l ≠ [] := hhdr l (by simp)
      have hpos : 0 < l.length := List.length_pos.mpr hl
      obtain ⟨st, h1, h2⟩ := ih rest l n hrest
        (fun x hx => hhdr x (List.mem_cons_of_mem _ hx)) (by simp at hfuel; omega)
      refine ⟨st, ?_, h2⟩
      rw [skip_header]
      simp only [getline, IStream.opened, IStream.good, hf, hb, Bool.not_false, Bool.and_self,
        if_true, gt_iff_lt, hpos]
      simpa [IStream.opened] using h1

/-- On a text without empty line that is empty or ends with a line feed, the header loop
ends when the input is exhausted, and the second loop finds nothing to read. -/
theorem skip_header_exhausted (content line : Str) (fuel : Nat)
    (hlines : ∀ l ∈ file_lines content, l ≠ [])
    (hlast : content = [] ∨ content.getLast? = some '\n')
    (hfuel : (file_lines content).length < fuel) :
    ∃ st, skip_header fuel (IStream.opened content) line = some (st, []) ∧
      getline_loop (st.buf.length + 1) st [] = [] := by
  induction fuel generalizing content line with
  | zero => omega
  | succ n ih =>
    cases hf : from_first '\n' content with
    | nil =>
      have hc : content = [] := by
        rcases hlast with h | h
        · exact h
        · obtain ⟨ys, hys⟩ := List.getLast?_eq_some_iff.mp h
          have : from_first '\n' content ≠ [] := by
            rw [Ne, from_first_eq_nil, hys]
            simp [contains_char]
          exact absurd hf this
      subst hc
      refine ⟨{ buf := [], eofbit := true, failbit := true }, ?_, ?_⟩
      · simp [skip_header, getline, IStream.opened, IStream.good, from_first]
      · simp [getline_loop, getline, IStream.good]
    | cons d rest =>
      have hd : d = '\n' := from_first_head _ _ _ _ hf
      have hsplit := file_lines_split content d rest hf
      have hb : before_first '\n' content ≠ [] := hlines _ (by rw [hsplit]; simp)
      have hpos : 0 < (before_first '\n' content).length := List.length_pos.mpr hb
      have hcont : content = before_first '\n' content ++ d :: rest := by
        rw [← hf, before_append_from]
      have hrest : rest = [] ∨ rest.getLast? = some '\n' := by
        by_cases hr : rest = []
        · exact Or.inl hr
        · right
          rcases hlast with h | h
          · rw [h] at hf
            simp [from_first] at hf
          · rw [hcont, List.getLast?_append] at h
            obtain ⟨x, t, hxt⟩ := List.exists_cons_of_ne_nil hr
            rw [hxt, List.getLast?_cons_cons] at h
            rw [hxt]
            cases hg : (x :: t).getLast? with
            | none => simp at hg
            | some y =>
              rw [hg] at h
              simpa using h
      obtain ⟨st, h1, h2⟩ := ih rest (before_first '\n' content)
        (fun l hl => hlines l (by rw [hsplit]; simp [hl])) hrest
        (by rw [hsplit] at hfuel; simp at hfuel; omega)
      refine ⟨st, ?_, h2⟩
      rw [skip_header]
      simp only [getline, IStream.opened, IStream.good, hf, Bool.not_false, Bool.and_self,
        if_true, gt_iff_lt, hpos]
      simpa [IStream.opened] using h1


theorem std_regex_field_pattern (ext : Str → Option Regex) :
    std_regex ext field_pattern = some (Regex.ofGrep field_re) := by
  have h1 : unmodelled field_pattern = false := by decide
  have h2 : grep_parse field_pattern = some field_re := by decide
  simp [std_regex, h1, h2]

theorem field_lines_ofGrep (re : GrepRegex) (lines : List Str) :
    field_lines (Regex.ofGrep re) lines =
      lines.filterMap (fun line =>
        if grep_match re line then
          some (Event.cout Stage.tracepoint_args
            ("    ".toList ++ through_first ';' (after_first ':' line)))
        else none) := by
  induction lines with
  | nil => rfl
  | cons l ls ih =>
    have hfull : (Regex.ofGrep re).full l = some (grep_match re l) := rfl
    cases hm : grep_match re l with
    | true =>
      rw [hm] at hfull
      simp only [field_lines, hfull, List.filterMap_cons, hm, if_true, ih]
    | false =>
      rw [hm] at hfull
      simp only [field_lines, hfull, List.filterMap_cons, hm, Bool.false_eq_true, if_false, ih]

/-- When the format file has an empty line, `print_tracepoint_args` returns after
printing, in file order, one line for each line behind the first empty line that matches
the field pattern: four spaces and the text from behind the first `:` through the first
`;`. -/
theorem print_tracepoint_args_fields (env : Env) (fuel : Nat) (category event content : Str)
    (hdr body : List Str)
    (hopen : env.open_file (tp_path ++ "/".toList ++ category ++ "/".toList ++ event ++
      "/format".toList) = some content)
    (h : file_lines content = hdr ++ [] :: body) (hhdr : ∀ l ∈ hdr, l ≠ [])
    (hfuel : hdr.length < fuel) :
    print_tracepoint_args env fuel category event =
      Run.emit (body.filterMap (fun line =>
        if grep_match field_re line then
          some (Event.cout Stage.tracepoint_args
            ("    ".toList ++ through_first ';' (after_first ':' line)))
        else none)) := by
  obtain ⟨st, h1, h2⟩ := skip_header_blank hdr body content [] fuel h hhdr hfuel
  simp only [print_tracepoint_args, std_regex_field_pattern, hopen, h1, h2, field_lines_ofGrep]

/-- When the format file has no empty line and is empty or ends with a line feed,
`print_tracepoint_args` returns without printing. -/
theorem print_tracepoint_args_no_blank (env : Env) (fuel : Nat)
    (category event content : Str)
    (hopen : env.open_file (tp_path ++ "/".toList ++ category ++ "/".toList ++ event ++
      "/format".toList) = some content)
    (hlines : ∀ l ∈ file_lines content, l ≠ [])
    (hlast : content = [] ∨ content.getLast? = some '\n')
    (hfuel : (file_lines content).length < fuel) :
    print_tracepoint_args env fuel category event = Run.emit [] := by
  obtain ⟨st, h1, h2⟩ := skip_header_exhausted content [] fuel hlines hlast hfuel
  simp only [print_tracepoint_args, std_regex_field_pattern, hopen, h1, h2, field_lines]

/-- When the format file has no empty line and does not end with a line feed,
`print_tracepoint_args` does not return, whatever the number of rounds granted to its
header loop. -/
theorem print_tracepoint_args_no_return (env : Env) (fuel : Nat)
    (category event content : Str)
    (hopen : env.open_file (tp_path ++ "/".toList ++ category ++ "/".toList ++ event ++
      "/format".toList) = some content)
    (hne : content ≠ []) (hlines : ∀ l ∈ file_lines content, l ≠ [])
    (hlast : content.getLast? ≠ some '\n') :
    print_tracepoint_args env fuel category event = { trace := [], ctl := Ctl.hang } := by
  have h1 := skip_header_never_returns content hne hlines hlast fuel []
  simp only [print_tracepoint_args, std_regex_field_pattern, hopen, h1]

/-- C9, at the failing input: with a format file that consists of the text
`name: sched_switch` without line feed (no empty line), `print_tracepoint_args` prints
nothing and does not return, for every bound on the rounds of its header loop. -/
theorem print_tracepoint_args_hangs (fuel : Nat) :
    print_tracepoint_args hang_env fuel "sched".toList "sched_switch".toList =
      { trace := [], ctl := Ctl.hang } :=
  print_tracepoint_args_no_return hang_env fuel "sched".toList
    "sched_switch".toList "name: sched_switch".toList (by decide) (by decide) (by decide)
    (by decide)

/-! ## Sequencing -/

theorem emit_andThen (evs : List Event) (k : Run) :
    (Run.emit evs).andThen k = { trace := evs ++ k.trace, ctl := k.ctl } := rfl

theorem andThen_next (r k : Run) (h : r.ctl = Ctl.next) :
    r.andThen k = { trace := r.trace ++ k.trace, ctl := k.ctl } := by
  simp [Run.andThen, h]

theorem andThen_stop (r k : Run) (h : r.ctl ≠ Ctl.next) : r.andThen k = r := by
  cases r with
  | mk t c =>
    cases c <;> simp_all [Run.andThen]

theorem andThen_ctl_next (r k : Run) (h : (r.andThen k).ctl = Ctl.next) :
    r.ctl = Ctl.next ∧ k.ctl = Ctl.next := by
  by_cases hr : r.ctl = Ctl.next
  · rw [andThen_next r k hr] at h
    exact ⟨hr, h⟩
  · rw [andThen_stop r k hr] at h
    exact absurd h hr

theorem andThen_ctl_ret (r k : Run) (hr : r.ctl ≠ Ctl.ret) (h : (r.andThen k).ctl = Ctl.ret) :
    r.ctl = Ctl.next ∧ k.ctl = Ctl.ret := by
  by_cases hn : r.ctl = Ctl.next
  · rw [andThen_next r k hn] at h
    exact ⟨hn, h⟩
  · rw [andThen_stop r k hn] at h
    exact absurd h hr

theorem forall_andThen (P : Event → Prop) (r k : Run) (hr : ∀ e ∈ r.trace, P e)
    (hk : ∀ e ∈ k.trace, P e) : ∀ e ∈ (r.andThen k).trace, P e := by
  by_cases hn : r.ctl = Ctl.next
  · rw [andThen_next r k hn]
    intro e he
    rcases List.mem_append.mp he with h | h
    · exact hr e h
    · exact hk e h
  · rw [andThen_stop r k hn]
    exact hr

/-! ## Projections of a trace -/

theorem stage_lines_append (st : Stage) (a b : List Event) :
    stage_lines st (a ++ b) = stage_lines st a ++ stage_lines st b := by
  induction a with
  | nil => rfl
  | cons e a ih =>
    cases e with
    | cout st2 l =>
      by_cases h : st2 = st
      · simp [stage_lines, h, ih]
      · simp [stage_lines, h, ih]
    | _ => simp [stage_lines, ih]

theorem stage_lines_eq_nil (st : Stage) (evs : List Event)
    (h : ∀ e ∈ evs, ∀ l, e ≠ Event.cout st l) : stage_lines st evs = [] := by
  induction evs with
  | nil => rfl
  | cons e evs ih =>
    have ih2 := ih (fun x hx => h x (List.mem_cons_of_mem _ hx))
    cases e with
    | cout st2 l =>
      have hne : st2 ≠ st := by
        intro e2
        exact h (Event.cout st2 l) (by simp) l (by rw [e2])
      simp [stage_lines, hne, ih2]
    | _ => simp [stage_lines, ih2]

theorem identifier_lines_append (a b : List Event) :
    identifier_lines (a ++ b) = identifier_lines a ++ identifier_lines b := by
  induction a with
  | nil => rfl
  | cons e a ih =>
    cases e with
    | cout st2 l =>
      by_cases h : st2 = Stage.tracepoint_args
      · simp [identifier_lines, h, ih]
      · simp [identifier_lines, h, ih]
    | _ => simp [identifier_lines, ih]

theorem stage_lines_andThen_left (st : Stage) (r k : Run)
    (hk : ∀ e ∈ k.trace, ∀ l, e ≠ Event.cout st l) :
    stage_lines st (r.andThen k).trace = stage_lines st r.trace := by
  by_cases hn : r.ctl = Ctl.next
  · rw [andThen_next r k hn]
    simp [stage_lines_append, stage_lines_eq_nil st k.trace hk]
  · rw [andThen_stop r k hn]

theorem stage_lines_andThen_right (st : Stage) (r k : Run)
    (hr : ∀ e ∈ r.trace, ∀ l, e ≠ Event.cout st l) (hn : r.ctl = Ctl.next) :
    stage_lines st (r.andThen k).trace = stage_lines st k.trace := by
  rw [andThen_next r k hn]
  simp [stage_lines_append, stage_lines_eq_nil st r.trace hr]

/-! ## What each block can do -/

theorem from_list_events (stage : Stage) (l : List ProbeListItem) (pt search : Str)
    (re : Regex) :
    ∀ e ∈ list_probes_from_list stage l pt search re, ∃ line, e = Event.cout stage line := by
  intro e he
  simp only [list_probes_from_list, List.mem_filterMap] at he
  obtain ⟨a, _, ha⟩ := he
  split at ha
  · simp at ha
  · simp only [Option.some.injEq] at ha
    exact ⟨_, ha.symm⟩

theorem from_list_nil_search (stage : Stage) (l : List ProbeListItem) (pt : Str)
    (re : Regex) :
    list_probes_from_list stage l pt [] re =
      l.map (fun item => Event.cout stage (pt ++ ":".toList ++ item.path ++ ":".toList)) := by
  simp only [list_probes_from_list]
  exact filterMap_some _ _

theorem uprobe_symbols_events (env : Env) (exe : Str) (show_all : Bool) (search : Str)
    (re : Regex) :
    ∀ e ∈ uprobe_symbols env exe show_all search re,
      e = Event.extract_func_symbols_from_path exe ∨
        ∃ sym ∈ file_lines (env.extract_func_symbols_from_path exe),
          e = Event.cout Stage.uprobe ("uprobe:".toList ++ exe ++ ":".toList ++ sym) := by
  intro e he
  simp only [uprobe_symbols, List.mem_cons, List.mem_filterMap, getlines_eq_file_lines] at he
  rcases he with h | ⟨sym, hsym, h⟩
  · exact Or.inl h
  · right
    split at h
    · simp only [Option.some.injEq] at h
      exact ⟨sym, hsym, h.symm⟩
    · simp at h

theorem uprobe_symbols_show_all (env : Env) (exe search : Str) (re : Regex) :
    uprobe_symbols env exe true search re =
      Event.extract_func_symbols_from_path exe ::
        (file_lines (env.extract_func_symbols_from_path exe)).map (fun sym =>
          Event.cout Stage.uprobe ("uprobe:".toList ++ exe ++ ":".toList ++ sym)) := by
  simp only [uprobe_symbols, getlines_eq_file_lines, Bool.true_or, if_true]
  rw [filterMap_some]

theorem usdt_emit_events (probes : List usdt_probe_entry) (all : Bool) (search : Str)
    (re : Regex) :
    ∀ e ∈ usdt_emit probes all search re,
      ∃ u ∈ probes, e = Event.cout Stage.usdt
        ("usdt:".toList ++ u.path ++ ":".toList ++ u.provider ++ ":".toList ++ u.name) := by
  intro e he
  simp only [usdt_emit, List.mem_filterMap] at he
  obtain ⟨u, hu, h⟩ := he
  split at h
  · simp only [Option.some.injEq] at h
    exact ⟨u, hu, h.symm⟩
  · simp at h

theorem usdt_emit_all (probes : List usdt_probe_entry) (search : Str) (re : Regex) :
    usdt_emit probes true search re =
      probes.map (fun u => Event.cout Stage.usdt
        ("usdt:".toList ++ u.path ++ ":".toList ++ u.provider ++ ":".toList ++ u.name)) := by
  simp only [usdt_emit, Bool.true_or, if_true, usdt_line]
  rw [filterMap_some]


theorem plain_output_ne_cout (S : List Stage) (e : Event) (h : plain_output S e) (st : Stage)
    (hst : st ∉ S) (l : Str) : e ≠ Event.cout st l := by
  intro he
  subst he
  rcases h with ⟨st2, l2, h2, he⟩ | ⟨l2, he⟩ | ⟨b, he⟩
  · simp only [Event.cout.injEq] at he
    exact hst (he.1 ▸ h2)
  · simp at he
  · simp at he

theorem from_list_plain (stage : Stage) (l : List ProbeListItem) (pt search : Str)
    (re : Regex) : ∀ e ∈ list_probes_from_list stage l pt search re, plain_output [stage] e := by
  intro e he
  obtain ⟨line, h⟩ := from_list_events stage l pt search re e he
  exact Or.inl ⟨stage, line, by simp, h⟩

theorem plain_output_mono (S T : List Stage) (hST : ∀ st ∈ S, st ∈ T) (e : Event)
    (h : plain_output S e) : plain_output T e := by
  rcases h with ⟨st, l, hst, he⟩ | h | h
  · exact Or.inl ⟨st, l, hST st hst, he⟩
  · exact Or.inr (Or.inl h)
  · exact Or.inr (Or.inr h)

theorem field_lines_plain (re : Regex) (lines : List Str) :
    ∀ e ∈ field_lines re lines, plain_output [Stage.tracepoint_args] e := by
  induction lines with
  | nil => simp [field_lines]
  | cons l ls ih =>
    intro e he
    simp only [field_lines] at he
    split at he
    · simp at he
    · rcases List.mem_cons.mp he with h | h
      · exact Or.inl ⟨Stage.tracepoint_args, _, by simp, h⟩
      · exact ih e h
    · exact ih e he

theorem print_tracepoint_args_plain (env : Env) (fuel : Nat) (cat event : Str) :
    ∀ e ∈ (print_tracepoint_args env fuel cat event).trace,
      plain_output [Stage.tracepoint_args] e := by
  intro e he
  simp only [print_tracepoint_args, std_regex_field_pattern] at he
  split at he
  · simp only [Run.emit, List.mem_singleton] at he
    exact Or.inr (Or.inl ⟨_, he⟩)
  · split at he
    · simp at he
    · exact field_lines_plain _ _ e he

theorem print_tracepoint_args_ctl (env : Env) (fuel : Nat) (cat event : Str) :
    (print_tracepoint_args env fuel cat event).ctl ≠ Ctl.ret := by
  simp only [print_tracepoint_args, std_regex_field_pattern]
  split
  · simp [Run.emit]
  · split <;> simp [Run.emit]

theorem andThen_ctl_ne_ret (r k : Run) (hr : r.ctl ≠ Ctl.ret) (hk : k.ctl ≠ Ctl.ret) :
    (r.andThen k).ctl ≠ Ctl.ret := by
  by_cases hn : r.ctl = Ctl.next
  · rw [andThen_next r k hn]
    exact hk
  · rw [andThen_stop r k hn]
    exact hr

theorem tracepoint_events_plain (env : Env) (fuel : Nat) (search : Str) (re : Regex)
    (cat : Str) (events : List Str) :
    ∀ e ∈ (tracepoint_events env fuel search re cat events).trace,
      plain_output [Stage.tracepoint, Stage.tracepoint_args] e := by
  induction events with
  | nil => simp [tracepoint_events, Run.emit]
  | cons ev rest ih =>
    simp only [tracepoint_events]
    split
    · exact ih
    · split
      · exact ih
      · apply forall_andThen _ _ _ _ ih
        apply forall_andThen
        · intro e he
          simp only [Run.emit, List.mem_singleton] at he
          exact Or.inl ⟨Stage.tracepoint, _, by simp, he⟩
        · split
          · intro e he
            exact plain_output_mono [Stage.tracepoint_args] _ (by simp) e
              (print_tracepoint_args_plain env fuel cat ev e he)
          · simp [Run.emit]

theorem tracepoint_events_ctl (env : Env) (fuel : Nat) (search : Str) (re : Regex)
    (cat : Str) (events : List Str) :
    (tracepoint_events env fuel search re cat events).ctl ≠ Ctl.ret := by
  induction events with
  | nil => simp [tracepoint_events, Run.emit]
  | cons ev rest ih =>
    simp only [tracepoint_events]
    split
    · exact ih
    · split
      · exact ih
      · apply andThen_ctl_ne_ret _ _ _ ih
        apply andThen_ctl_ne_ret
        · simp [Run.emit]
        · split
          · exact print_tracepoint_args_ctl env fuel cat ev
          · simp [Run.emit]

theorem tracepoint_cats_plain (env : Env) (fuel : Nat) (search : Str) (re : Regex)
    (cats : List Str) :
    ∀ e ∈ (tracepoint_cats env fuel search re cats).trace,
      plain_output [Stage.tracepoint, Stage.tracepoint_args] e := by
  induction cats with
  | nil => simp [tracepoint_cats, Run.emit]
  | cons cat rest ih =>
    simp only [tracepoint_cats]
    split
    · exact ih
    · exact forall_andThen _ _ _ (tracepoint_events_plain _ _ _ _ _ _) ih

theorem tracepoint_cats_ctl (env : Env) (fuel : Nat) (search : Str) (re : Regex)
    (cats : List Str) : (tracepoint_cats env fuel search re cats).ctl ≠ Ctl.ret := by
  induction cats with
  | nil => simp [tracepoint_cats, Run.emit]
  | cons cat rest ih =>
    simp only [tracepoint_cats]
    split
    · exact ih
    · exact andThen_ctl_ne_ret _ _ (tracepoint_events_ctl _ _ _ _ _ _) ih

theorem tracepoint_block_plain (env : Env) (fuel : Nat) (search : Str) (re : Regex) :
    ∀ e ∈ (tracepoint_block env fuel search re).trace,
      plain_output [Stage.tracepoint, Stage.tracepoint_args] e :=
  tracepoint_cats_plain _ _ _ _ _

theorem tracepoint_block_ctl (env : Env) (fuel : Nat) (search : Str) (re : Regex) :
    (tracepoint_block env fuel search re).ctl ≠ Ctl.ret :=
  tracepoint_cats_ctl _ _ _ _ _

theorem kprobe_emit_plain (search : Str) (re : Regex) (content : Str) :
    ∀ e ∈ kprobe_emit search re content, plain_output [Stage.kprobe] e := by
  intro e he
  simp only [kprobe_emit, List.mem_filterMap] at he
  obtain ⟨a, _, ha⟩ := he
  split at ha
  · simp at ha
  · simp only [Option.some.injEq] at ha
    exact Or.inl ⟨Stage.kprobe, _, by simp, ha.symm⟩

theorem kernel_block_plain (env : Env) (search : Str) (re : Regex) :
    ∀ e ∈ (kernel_block env search re).trace, plain_output [Stage.kprobe] e := by
  intro e he
  simp only [kernel_block, kprobe_block] at he
  split at he
  · simp at he
  · split at he
    · simp only [List.mem_singleton] at he
      exact Or.inr (Or.inl ⟨_, he⟩)
    · simp only [List.mem_append, List.mem_singleton] at he
      rcases he with h | h
      · exact kprobe_emit_plain _ _ _ e h
      · exact Or.inr (Or.inr ⟨_, h⟩)

theorem uprobe_block_stage (env : Env) (probe_name search : Str) (re : Regex) :
    ∀ e ∈ (uprobe_block env probe_name search re).trace, ∀ st l,
      e = Event.cout st l → st = Stage.uprobe := by
  intro e he st l hcout
  subst hcout
  have key : ∀ exe show_all, Event.cout st l ∈ uprobe_symbols env exe show_all search re →
      st = Stage.uprobe := by
    intro exe show_all h
    rcases uprobe_symbols_events env exe show_all search re _ h with h1 | ⟨sym, _, h1⟩
    · simp at h1
    · simp only [Event.cout.injEq] at h1
      exact h1.1
  simp only [uprobe_block] at he
  split at he
  · simp only [Run.emit] at he
    split at he
    · exact key _ _ he
    · simp at he
  · split at he
    · split at he
      · simp at he
      · simp only [Run.emit, List.mem_cons] at he
        rcases he with h | h
        · simp at h
        · split at h
          · exact key _ _ h
          · simp at h
      · simp at he
    · simp [Run.emit] at he

theorem usdt_block_stage (env : Env) (probe_name search : Str) (re : Regex) :
    ∀ e ∈ (usdt_block env probe_name search re).trace, ∀ st l,
      e = Event.cout st l → st = Stage.usdt := by
  intro e he st l hcout
  subst hcout
  have key : ∀ probes all, Event.cout st l ∈ usdt_emit probes all search re →
      st = Stage.usdt := by
    intro probes all h
    obtain ⟨u, _, h1⟩ := usdt_emit_events probes all search re _ h
    simp only [Event.cout.injEq] at h1
    exact h1.1
  simp only [usdt_block] at he
  split at he
  · simp only [Run.emit, List.mem_cons] at he
    rcases he with h | h
    · simp at h
    · exact key _ _ h
  · split at he
    · split at he
      · simp at he
      · simp only [Run.emit, List.mem_cons] at he
        rcases he with h | h | h
        · simp at h
        · simp at h
        · exact key _ _ h
      · simp at he
    · simp [Run.emit] at he

/-! ## The empty search -/

theorem std_regex_nil (ext : Str → Option Regex) :
    std_regex ext (search_pattern []) = some empty_re := by
  have h1 : unmodelled (search_pattern []) = false := by decide
  have h2 : grep_parse (search_pattern []) = some [[Term.bol, Term.eol]] := by decide
  simp [std_regex, h1, h2, empty_re]

theorem list_dir_nil (env : Env) (path : Str) : list_dir env path [] = dir_entries env path := by
  simp only [list_dir, dir_entries]
  cases env.opendir path <;> simp

theorem skipped_entry_eq (name : Str) : skipped_entry name = !kept_entry name := by
  by_cases h1 : name = ".".toList
  · subst h1; decide
  · by_cases h2 : name = "..".toList
    · subst h2; decide
    · by_cases h3 : name = "enable".toList
      · subst h3; decide
      · by_cases h4 : name = "filter".toList
        · subst h4; decide
        · have e1 := beq_eq_false_iff_ne.mpr h1
          have e2 := beq_eq_false_iff_ne.mpr h2
          have e3 := beq_eq_false_iff_ne.mpr h3
          have e4 := beq_eq_false_iff_ne.mpr h4
          have hk : kept_entry name = true := by
            simp only [kept_entry, List.mem_cons, List.mem_singleton, List.not_mem_nil,
              or_false, h1, h2, h3, h4, or_self, not_false_eq_true, decide_True]
          rw [hk]
          simp only [skipped_entry, e1, e2, e3, e4]
          rfl

/-- Without verbosity the inner tracepoint loop prints one line for each kept event. -/
theorem tracepoint_events_quiet (env : Env) (hv : env.bt_verbose = false) (fuel : Nat)
    (re : Regex) (cat : Str) (events : List Str) :
    tracepoint_events env fuel [] re cat events =
      Run.emit (((events.filter kept_entry).map fun event =>
        "tracepoint:".toList ++ cat ++ ":".toList ++ event).map
          (Event.cout Stage.tracepoint)) := by
  induction events with
  | nil => rfl
  | cons ev rest ih =>
    by_cases hk : kept_entry ev = true
    · simp [tracepoint_events, skipped_entry_eq, hk, hv, ih, Run.andThen, Run.emit]
    · simp [tracepoint_events, skipped_entry_eq, hk, ih]

theorem tracepoint_cats_quiet (env : Env) (hv : env.bt_verbose = false) (fuel : Nat)
    (re : Regex) (cats : List Str) :
    tracepoint_cats env fuel [] re cats =
      Run.emit (((cats.filter kept_entry).flatMap fun cat =>
        ((dir_entries env (tp_path ++ "/".toList ++ cat)).filter kept_entry).map fun event =>
          "tracepoint:".toList ++ cat ++ ":".toList ++ event).map
            (Event.cout Stage.tracepoint)) := by
  induction cats with
  | nil => rfl
  | cons cat rest ih =>
    by_cases hk : kept_entry cat = true
    · simp [tracepoint_cats, skipped_entry_eq, hk, ih, tracepoint_events_quiet env hv,
        list_dir_nil, Run.andThen, Run.emit]
    · simp [tracepoint_cats, skipped_entry_eq, hk, ih]

/-- With any verbosity: when the inner tracepoint loop falls through, a projection that
keeps the identifier lines and drops the argument listings yields one line for each kept
event. -/
theorem tracepoint_events_proj (proj : List Event → List Str)
    (happ : ∀ a b, proj (a ++ b) = proj a ++ proj b)
    (hcout : ∀ l, proj [Event.cout Stage.tracepoint l] = [l])
    (hargs : ∀ evs, (∀ e ∈ evs, plain_output [Stage.tracepoint_args] e) → proj evs = [])
    (env : Env) (fuel : Nat) (re : Regex) (cat : Str) (events : List Str)
    (hctl : (tracepoint_events env fuel [] re cat events).ctl = Ctl.next) :
    proj (tracepoint_events env fuel [] re cat events).trace =
      (events.filter kept_entry).map fun event =>
        "tracepoint:".toList ++ cat ++ ":".toList ++ event := by
  induction events with
  | nil =>
    simp only [tracepoint_events, Run.emit, List.filter_nil, List.map_nil]
    exact hargs [] (by simp)
  | cons ev rest ih =>
    by_cases hk : kept_entry ev = true
    · simp only [tracepoint_events, skipped_entry_eq, hk, Bool.not_true, Bool.false_eq_true,
        if_false, List.isEmpty_nil, Bool.false_and] at hctl ⊢
      obtain ⟨h1, h2⟩ := andThen_ctl_next _ _ hctl
      obtain ⟨_, h3⟩ := andThen_ctl_next _ _ h1
      have hA : proj (if env.bt_verbose = true then print_tracepoint_args env fuel cat ev
          else Run.emit []).trace = [] := by
        apply hargs
        split
        · exact print_tracepoint_args_plain env fuel cat ev
        · simp [Run.emit]
      rw [andThen_next _ _ h1, andThen_next _ _ (by rfl)]
      simp only [Run.emit] at hA ⊢
      rw [happ, happ, hcout, hA, ih h2]
      simp [List.filter_cons, hk]
    · simp only [tracepoint_events, skipped_entry_eq, hk, Bool.not_false, if_true] at hctl ⊢
      simp only [List.filter_cons, hk, Bool.false_eq_true, if_false]
      exact ih hctl

theorem tracepoint_cats_proj (proj : List Event → List Str)
    (happ : ∀ a b, proj (a ++ b) = proj a ++ proj b)
    (hcout : ∀ l, proj [Event.cout Stage.tracepoint l] = [l])
    (hargs : ∀ evs, (∀ e ∈ evs, plain_output [Stage.tracepoint_args] e) → proj evs = [])
    (env : Env) (fuel : Nat) (re : Regex) (cats : List Str)
    (hctl : (tracepoint_cats env fuel [] re cats).ctl = Ctl.next) :
    proj (tracepoint_cats env fuel [] re cats).trace =
      (cats.filter kept_entry).flatMap fun cat =>
        ((dir_entries env (tp_path ++ "/".toList ++ cat)).filter kept_entry).map fun event =>
          "tracepoint:".toList ++ cat ++ ":".toList ++ event := by
  induction cats with
  | nil =>
    simp only [tracepoint_cats, Run.emit, List.filter_nil, List.flatMap_nil]
    exact hargs [] (by simp)
  | cons cat rest ih =>
    by_cases hk : kept_entry cat = true
    · simp only [tracepoint_cats, skipped_entry_eq, hk, Bool.not_true, Bool.false_eq_true,
        if_false] at hctl ⊢
      obtain ⟨h1, h2⟩ := andThen_ctl_next _ _ hctl
      rw [andThen_next _ _ h1]
      simp only [happ, ih h2, List.filter_cons, hk, if_true, List.flatMap_cons, list_dir_nil]
      rw [tracepoint_events_proj proj happ hcout hargs env fuel re cat _
        (by simpa [list_dir_nil] using h1)]
    · simp only [tracepoint_cats, skipped_entry_eq, hk, Bool.not_false, if_true] at hctl ⊢
      simp only [List.filter_cons, hk, Bool.false_eq_true, if_false]
      exact ih hctl


theorem uprobe_block_nil_name (env : Env) (search : Str) (re : Regex) :
    (uprobe_block env [] search re).ctl = Ctl.next ∧
      (env.pid ≤ 0 → uprobe_block env [] search re = Run.emit []) := by
  have hne : ¬ (([] : Str) = "uprobe".toList) := by decide
  by_cases hp : env.pid > 0
  · refine ⟨by simp [uprobe_block, hp, Run.emit], fun h => ?_⟩
    omega
  · simp [uprobe_block, hp, hne, Run.emit]

theorem usdt_block_nil_name (env : Env) (search : Str) (re : Regex) :
    (usdt_block env [] search re).ctl = Ctl.next ∧
      (env.pid ≤ 0 → usdt_block env [] search re = Run.emit []) := by
  have hne : ¬ (([] : Str) = "usdt".toList) := by decide
  by_cases hp : env.pid > 0
  · refine ⟨by simp [usdt_block, hp, Run.emit], fun h => ?_⟩
    omega
  · simp [usdt_block, hp, hne, Run.emit]

/-- The blocks an empty search runs through. -/
theorem list_probes_nil (env : Env) (fuel : Nat) :
    list_probes env fuel [] =
      (Run.emit (env.SW_PROBE_LIST.map fun item =>
        Event.cout Stage.software ("software:".toList ++ item.path ++ ":".toList))).andThen
      ((Run.emit (env.HW_PROBE_LIST.map fun item =>
        Event.cout Stage.hardware ("hardware:".toList ++ item.path ++ ":".toList))).andThen
      ((uprobe_block env [] [] empty_re).andThen
      ((usdt_block env [] [] empty_re).andThen
      ((tracepoint_block env fuel [] empty_re).andThen
        (kprobe_block env [] empty_re))))) := by
  have hk : kernel_block env [] empty_re = kprobe_block env [] empty_re := by
    simp [kernel_block]
  simp only [list_probes, normalize_nil, std_regex_nil, from_list_nil_search, hk]
  rfl

theorem kprobe_block_nil (env : Env) (re : Regex) (content : Str)
    (hopen : env.open_file kprobe_path = some content) :
    kprobe_block env [] re =
      { trace := (file_lines content).map (fun line =>
          Event.cout Stage.kprobe ("kprobe:".toList ++ line.takeWhile (fun d => d != ' '))) ++
            [Event.display_funcs false],
        ctl := Ctl.ret } := by
  simp [kprobe_block, hopen, kprobe_emit_nil]

/-- Without verbosity the tracepoint block of an empty search only prints the
identifiers of the tree. -/
theorem tracepoint_block_quiet (env : Env) (hv : env.bt_verbose = false) (fuel : Nat)
    (re : Regex) :
    tracepoint_block env fuel [] re =
      Run.emit ((tracepoint_identifiers env).map (Event.cout Stage.tracepoint)) := by
  simp only [tracepoint_block, list_dir_nil, tracepoint_cats_quiet env hv,
    tracepoint_identifiers]

/-- An empty search that returns has run every block. -/
theorem list_probes_nil_returns (env : Env) (fuel : Nat)
    (hret : (list_probes env fuel []).ctl = Ctl.ret) :
    (tracepoint_block env fuel [] empty_re).ctl = Ctl.next ∧
      (list_probes env fuel []).trace =
        (env.SW_PROBE_LIST.map fun item =>
          Event.cout Stage.software ("software:".toList ++ item.path ++ ":".toList)) ++
        ((env.HW_PROBE_LIST.map fun item =>
          Event.cout Stage.hardware ("hardware:".toList ++ item.path ++ ":".toList)) ++
        ((uprobe_block env [] [] empty_re).trace ++
        ((usdt_block env [] [] empty_re).trace ++
        ((tracepoint_block env fuel [] empty_re).trace ++
          (kprobe_block env [] empty_re).trace)))) := by
  rw [list_probes_nil] at hret ⊢
  have hu := (uprobe_block_nil_name env [] empty_re).1
  have hs := (usdt_block_nil_name env [] empty_re).1
  rw [emit_andThen, emit_andThen, andThen_next _ _ hu, andThen_next _ _ hs] at hret ⊢
  simp only at hret ⊢
  obtain ⟨ht, _⟩ := andThen_ctl_ret _ _ (tracepoint_block_ctl env fuel [] empty_re) hret
  rw [andThen_next _ _ ht]
  exact ⟨ht, rfl⟩


theorem stage_lines_map_other (st st2 : Stage) (h : st2 ≠ st) {α : Type} (f : α → Str)
    (l : List α) : stage_lines st (l.map fun a => Event.cout st2 (f a)) = [] := by
  apply stage_lines_eq_nil
  intro e he line hcout
  obtain ⟨a, _, ha⟩ := List.mem_map.mp he
  rw [hcout] at ha
  simp only [Event.cout.injEq] at ha
  exact h ha.1

theorem stage_lines_map_same (st : Stage) {α : Type} (f : α → Str) (l : List α) :
    stage_lines st (l.map fun a => Event.cout st (f a)) = l.map f := by
  induction l with
  | nil => rfl
  | cons a l ih => simp [stage_lines, ih]

theorem identifier_lines_map (st : Stage) (h : st ≠ Stage.tracepoint_args) {α : Type}
    (f : α → Str) (l : List α) :
    identifier_lines (l.map fun a => Event.cout st (f a)) = l.map f := by
  induction l with
  | nil => rfl
  | cons a l ih => simp [identifier_lines, h, ih]

theorem stage_lines_block (st st2 : Stage) (h : st ≠ st2) (evs : List Event)
    (hevs : ∀ e ∈ evs, ∀ s l, e = Event.cout s l → s = st2) : stage_lines st evs = [] := by
  apply stage_lines_eq_nil
  intro e he l hcout
  exact h (hevs e he st l hcout)

theorem stage_lines_plain (st : Stage) (S : List Stage) (h : st ∉ S) (evs : List Event)
    (hevs : ∀ e ∈ evs, plain_output S e) : stage_lines st evs = [] := by
  apply stage_lines_eq_nil
  intro e he l
  exact plain_output_ne_cout S e (hevs e he) st h l

theorem identifier_lines_args (evs : List Event)
    (h : ∀ e ∈ evs, plain_output [Stage.tracepoint_args] e) : identifier_lines evs = [] := by
  induction evs with
  | nil => rfl
  | cons e evs ih =>
    have ih2 := ih (fun x hx => h x (List.mem_cons_of_mem _ hx))
    rcases h e (by simp) with ⟨st, l, hst, he⟩ | ⟨l, he⟩ | ⟨b, he⟩
    · simp only [List.mem_singleton] at hst
      subst he hst
      simp [identifier_lines, ih2]
    · subst he
      simp [identifier_lines, ih2]
    · subst he
      simp [identifier_lines, ih2]

theorem stage_lines_args (evs : List Event)
    (h : ∀ e ∈ evs, plain_output [Stage.tracepoint_args] e) :
    stage_lines Stage.tracepoint evs = [] :=
  stage_lines_plain Stage.tracepoint [Stage.tracepoint_args] (by decide) evs h

/-- C3, as stated, fails: a tab is a whitespace character, but a line whose module
annotation follows a tab is not truncated there. The listing prints
`kprobe:do_exit<tab>[some_module]`, truncation at the first whitespace character would
give `kprobe:do_exit`. -/
theorem kprobe_tab_not_truncated :
    stage_lines Stage.kprobe (list_probes tab_env 0 []).trace =
        ["kprobe:do_exit\t[some_module]".toList] ∧
      "kprobe:".toList ++ "do_exit\t[some_module]".toList.takeWhile
        (fun c => !c.isWhitespace) = "kprobe:do_exit".toList ∧
      "kprobe:do_exit\t[some_module]".toList ≠ "kprobe:do_exit".toList := by
  decide

/-- C3, amended: for every content of the available-functions file and an empty search,
the kprobe block emits one line per file line, in file order and without
deduplication: `kprobe:` followed by the file line truncated at its first space
character (the whole line when it has no space); then it delegates to the
kernel-function provider. A listing with an empty search that returns has printed
exactly these kprobe lines. -/
theorem kprobe_stage_lines (env : Env) (fuel : Nat) (re : Regex) (content : Str)
    (hopen : env.open_file kprobe_path = some content) :
    kprobe_block env [] re =
        { trace := (file_lines content).map (fun line =>
            Event.cout Stage.kprobe
              ("kprobe:".toList ++ line.takeWhile (fun d => d != ' '))) ++
              [Event.display_funcs false],
          ctl := Ctl.ret } ∧
      ((list_probes env fuel []).ctl = Ctl.ret →
        stage_lines Stage.kprobe (list_probes env fuel []).trace =
          (file_lines content).map (fun line =>
            "kprobe:".toList ++ line.takeWhile (fun d => d != ' '))) := by
  refine ⟨kprobe_block_nil env re content hopen, fun hret => ?_⟩
  obtain ⟨_, htrace⟩ := list_probes_nil_returns env fuel hret
  rw [htrace, kprobe_block_nil env empty_re content hopen]
  simp only [stage_lines_append]
  rw [stage_lines_map_other _ _ (by decide), stage_lines_map_other _ _ (by decide),
    stage_lines_block Stage.kprobe Stage.uprobe (by decide) _ (uprobe_block_stage _ _ _ _),
    stage_lines_block Stage.kprobe Stage.usdt (by decide) _ (usdt_block_stage _ _ _ _),
    stage_lines_plain Stage.kprobe _ (by decide) _ (tracepoint_block_plain _ _ _ _),
    stage_lines_map_same]
  simp [stage_lines]

/-- The kprobe lines of the small machine: `do_exit` and `do_exit [some_module]` both
give `kprobe:do_exit`. -/
theorem kprobe_stage_lines_witness :
    demo_env.open_file kprobe_path = some "do_exit\ndo_exit [some_module]\n".toList ∧
      (list_probes demo_env 0 []).ctl = Ctl.ret ∧
      stage_lines Stage.kprobe (list_probes demo_env 0 []).trace =
        (file_lines "do_exit\ndo_exit [some_module]\n".toList).map (fun line =>
          "kprobe:".toList ++ line.takeWhile (fun d => d != ' ')) ∧
      (file_lines "do_exit\ndo_exit [some_module]\n".toList).map (fun line =>
          "kprobe:".toList ++ line.takeWhile (fun d => d != ' ')) =
        ["kprobe:do_exit".toList, "kprobe:do_exit".toList] :=
  ⟨by decide, by decide,
    (kprobe_stage_lines demo_env 0 empty_re "do_exit\ndo_exit [some_module]\n".toList
      (by decide)).2 (by decide), by decide⟩

/-- C5: for every tracepoint directory tree and an empty search, the tracepoint block
emits exactly the lines `tracepoint:<category>:<event>` for every category entry of the
root and every event entry of its directory where neither name is one of `.`, `..`,
`enable`, `filter`, in listing order. Without verbosity these lines are all the block
does; with verbosity, when the block falls through, they are its identifier lines, and a
listing that returns has printed exactly these tracepoint lines. -/
theorem tracepoint_stage_lines (env : Env) (fuel : Nat) (re : Regex) :
    (env.bt_verbose = false →
        tracepoint_block env fuel [] re =
          Run.emit ((tracepoint_identifiers env).map (Event.cout Stage.tracepoint))) ∧
      ((tracepoint_block env fuel [] re).ctl = Ctl.next →
        stage_lines Stage.tracepoint (tracepoint_block env fuel [] re).trace =
          tracepoint_identifiers env) ∧
      ((list_probes env fuel []).ctl = Ctl.ret →
        stage_lines Stage.tracepoint (list_probes env fuel []).trace =
          tracepoint_identifiers env) := by
  have hproj : ∀ re2, (tracepoint_block env fuel [] re2).ctl = Ctl.next →
      stage_lines Stage.tracepoint (tracepoint_block env fuel [] re2).trace =
        tracepoint_identifiers env := by
    intro re2 hctl
    simp only [tracepoint_block, list_dir_nil] at hctl ⊢
    exact tracepoint_cats_proj (stage_lines Stage.tracepoint) (stage_lines_append _)
      (fun l => by simp [stage_lines]) stage_lines_args env fuel re2 _ hctl
  refine ⟨fun hv => tracepoint_block_quiet env hv fuel re, hproj re, fun hret => ?_⟩
  · obtain ⟨ht, htrace⟩ := list_probes_nil_returns env fuel hret
    rw [htrace]
    simp only [stage_lines_append]
    rw [stage_lines_map_other _ _ (by decide), stage_lines_map_other _ _ (by decide),
      stage_lines_block Stage.tracepoint Stage.uprobe (by decide) _
        (uprobe_block_stage _ _ _ _),
      stage_lines_block Stage.tracepoint Stage.usdt (by decide) _ (usdt_block_stage _ _ _ _),
      hproj empty_re ht,
      stage_lines_plain Stage.tracepoint [Stage.kprobe] (by decide) _
        (fun e he => kernel_block_plain env [] empty_re e (by simpa [kernel_block] using he))]
    simp

/-- The tracepoint lines of the small machine: categories `sched`, `.`, `..`, and in
`sched` the entries `sched_switch`, `enable`, `filter`. -/
theorem tracepoint_stage_lines_witness :
    demo_env.bt_verbose = false ∧
      tracepoint_block demo_env 0 [] empty_re =
        Run.emit ((tracepoint_identifiers demo_env).map (Event.cout Stage.tracepoint)) ∧
      tracepoint_identifiers demo_env = ["tracepoint:sched:sched_switch".toList] :=
  ⟨rfl, (tracepoint_stage_lines demo_env 0 empty_re).1 rfl, by decide⟩

/-! ## Whole listings -/

/-- C8: for an empty search string and no process id, with a readable
available-functions file, `list_probes` lists everything, unfiltered and in the fixed
order: every software entry as `software:<name>:`, every hardware entry as
`hardware:<name>:`, every kept tracepoint, one kprobe line per line of the file, and then
the delegation to the kernel-function provider without pattern. Without verbosity this
is the whole trace, for every bound on the header loops; with verbosity, a listing that
returns has printed exactly these identifier lines, in this order, and ended with the
delegation. No uprobe or USDT target is looked up, and the result does not depend on
the matcher. -/
theorem empty_search_lists_everything (env : Env) (fuel : Nat) (content : Str)
    (hpid : env.pid ≤ 0) (hopen : env.open_file kprobe_path = some content) :
    (env.bt_verbose = false →
        list_probes env fuel [] =
          { trace :=
              (env.SW_PROBE_LIST.map fun item =>
                Event.cout Stage.software ("software:".toList ++ item.path ++ ":".toList)) ++
              (env.HW_PROBE_LIST.map fun item =>
                Event.cout Stage.hardware ("hardware:".toList ++ item.path ++ ":".toList)) ++
              (tracepoint_identifiers env).map (Event.cout Stage.tracepoint) ++
              (file_lines content).map (fun line =>
                Event.cout Stage.kprobe
                  ("kprobe:".toList ++ line.takeWhile (fun d => d != ' '))) ++
              [Event.display_funcs false],
            ctl := Ctl.ret }) ∧
      ((list_probes env fuel []).ctl = Ctl.ret →
        identifier_lines (list_probes env fuel []).trace =
            (env.SW_PROBE_LIST.map fun item => "software:".toList ++ item.path ++ ":".toList) ++
            (env.HW_PROBE_LIST.map fun item => "hardware:".toList ++ item.path ++ ":".toList) ++
            tracepoint_identifiers env ++
            (file_lines content).map (fun line =>
              "kprobe:".toList ++ line.takeWhile (fun d => d != ' ')) ∧
          ∃ before, (list_probes env fuel []).trace = before ++ [Event.display_funcs false]) := by
  have hu := (uprobe_block_nil_name env [] empty_re).2 hpid
  have hs := (usdt_block_nil_name env [] empty_re).2 hpid
  constructor
  · intro hv
    rw [list_probes_nil, hu, hs, tracepoint_block_quiet env hv fuel empty_re,
      kprobe_block_nil env empty_re content hopen]
    simp [Run.andThen, Run.emit]
  · intro hret
    obtain ⟨ht, htrace⟩ := list_probes_nil_returns env fuel hret
    have htp : identifier_lines (tracepoint_block env fuel [] empty_re).trace =
        tracepoint_identifiers env := by
      simp only [tracepoint_block, list_dir_nil] at ht ⊢
      exact tracepoint_cats_proj identifier_lines identifier_lines_append
        (fun l => by simp [identifier_lines]) identifier_lines_args env fuel empty_re _ ht
    rw [htrace, hu, hs, kprobe_block_nil env empty_re content hopen]
    constructor
    · simp only [identifier_lines_append, htp, Run.emit]
      rw [identifier_lines_map _ (by decide), identifier_lines_map _ (by decide),
        identifier_lines_map _ (by decide)]
      simp [identifier_lines]
    · refine ⟨(env.SW_PROBE_LIST.map fun item =>
          Event.cout Stage.software ("software:".toList ++ item.path ++ ":".toList)) ++
        ((env.HW_PROBE_LIST.map fun item =>
          Event.cout Stage.hardware ("hardware:".toList ++ item.path ++ ":".toList)) ++
        ((tracepoint_block env fuel [] empty_re).trace ++
          (file_lines content).map (fun line =>
            Event.cout Stage.kprobe
              ("kprobe:".toList ++ line.takeWhile (fun d => d != ' '))))), ?_⟩
      simp [Run.emit]

/-- The complete listing of the small machine. -/
theorem empty_search_lists_everything_witness :
    demo_env.pid ≤ 0 ∧
      demo_env.open_file kprobe_path = some "do_exit\ndo_exit [some_module]\n".toList ∧
      demo_env.bt_verbose = false ∧
      stdout_lines (list_probes demo_env 0 []).trace =
        ["software:cpu-clock:".toList, "software:faults:".toList, "hardware:cycles:".toList,
          "tracepoint:sched:sched_switch".toList, "kprobe:do_exit".toList,
          "kprobe:do_exit".toList] :=
  ⟨by decide, by decide, rfl, by
    rw [(empty_search_lists_everything demo_env 0 "do_exit\ndo_exit [some_module]\n".toList
      (by decide) (by decide)).1 rfl]
    decide⟩

/-- C6: with a process id greater than 0, for every search string, `list_probes` never
asks the binary-path resolver and never queries USDT probes by path; the only binary
whose symbols are extracted is the executable of the process rewritten through its mount
namespace, every uprobe line is `uprobe:<that path>:<symbol>` for a line of its symbol
list, the USDT probes come from the by-pid query of this process id, and every usdt line
is the identifier of one of them. -/
theorem pid_takes_precedence (env : Env) (fuel : Nat) (search_input : Str)
    (hpid : env.pid > 0) :
    ∀ e ∈ (list_probes env fuel search_input).trace,
      (∀ cmd p, e ≠ Event.resolve_binary_path cmd p) ∧
      (∀ path, e ≠ Event.probes_for_path path) ∧
      (∀ path, e = Event.extract_func_symbols_from_path path →
        path = env.path_for_pid_mountns env.pid (env.get_pid_exe env.pid)) ∧
      (∀ q, e = Event.probes_for_pid q → q = env.pid) ∧
      (∀ line, e = Event.cout Stage.uprobe line →
        ∃ sym ∈ file_lines (env.extract_func_symbols_from_path
            (env.path_for_pid_mountns env.pid (env.get_pid_exe env.pid))),
          line = "uprobe:".toList ++
            env.path_for_pid_mountns env.pid (env.get_pid_exe env.pid) ++ ":".toList ++ sym) ∧
      (∀ line, e = Event.cout Stage.usdt line →
        ∃ u ∈ env.probes_for_pid env.pid,
          line = "usdt:".toList ++ u.path ++ ":".toList ++ u.provider ++ ":".toList ++
            u.name) := by
  have hplain : ∀ (S : List Stage) (e : Event), Stage.uprobe ∉ S → Stage.usdt ∉ S →
      plain_output S e →
      (∀ cmd p, e ≠ Event.resolve_binary_path cmd p) ∧
      (∀ path, e ≠ Event.probes_for_path path) ∧
      (∀ path, e = Event.extract_func_symbols_from_path path →
        path = env.path_for_pid_mountns env.pid (env.get_pid_exe env.pid)) ∧
      (∀ q, e = Event.probes_for_pid q → q = env.pid) ∧
      (∀ line, e = Event.cout Stage.uprobe line →
        ∃ sym ∈ file_lines (env.extract_func_symbols_from_path
            (env.path_for_pid_mountns env.pid (env.get_pid_exe env.pid))),
          line = "uprobe:".toList ++
            env.path_for_pid_mountns env.pid (env.get_pid_exe env.pid) ++ ":".toList ++ sym) ∧
      (∀ line, e = Event.cout Stage.usdt line →
        ∃ u ∈ env.probes_for_pid env.pid,
          line = "usdt:".toList ++ u.path ++ ":".toList ++ u.provider ++ ":".toList ++
            u.name) := by
    intro S e h1 h2 hp
    rcases hp with ⟨st, l, hst, he⟩ | ⟨l, he⟩ | ⟨b, he⟩
    · subst he
      refine ⟨by simp, by simp, by simp, by simp, ?_, ?_⟩
      · intro line hl
        simp only [Event.cout.injEq] at hl
        exact absurd (hl.1 ▸ hst) h1
      · intro line hl
        simp only [Event.cout.injEq] at hl
        exact absurd (hl.1 ▸ hst) h2
    · subst he
      simp
    · subst he
      simp
  unfold list_probes
  simp only
  split
  · intro e he
    simp only [List.mem_singleton] at he
    subst he
    simp
  · rename_i re _
    apply forall_andThen
    · intro e he
      exact hplain _ e (by decide) (by decide) (from_list_plain _ _ _ _ _ e he)
    apply forall_andThen
    · intro e he
      exact hplain _ e (by decide) (by decide) (from_list_plain _ _ _ _ _ e he)
    apply forall_andThen
    · intro e he
      simp only [uprobe_block, hpid, if_true, Run.emit] at he
      split at he
      · rcases uprobe_symbols_events env _ false _ re e he with h | ⟨sym, hsym, h⟩
        · subst h
          simp
        · subst h
          refine ⟨by simp, by simp, by simp, by simp, ?_, by simp⟩
          intro line hl
          simp only [Event.cout.injEq, true_and] at hl
          exact ⟨sym, hsym, hl.symm⟩
      · simp at he
    apply forall_andThen
    · intro e he
      simp only [usdt_block, hpid, if_true, Run.emit, List.mem_cons] at he
      rcases he with h | h
      · subst h
        simp
      · obtain ⟨u, hu, h⟩ := usdt_emit_events _ false _ re e h
        subst h
        refine ⟨by simp, by simp, by simp, by simp, by simp, ?_⟩
        intro line hl
        simp only [Event.cout.injEq, true_and] at hl
        exact ⟨u, hu, hl.symm⟩
    apply forall_andThen
    · intro e he
      exact hplain _ e (by decide) (by decide) (tracepoint_block_plain _ _ _ _ e he)
    · intro e he
      exact hplain _ e (by decide) (by decide) (kernel_block_plain _ _ _ e he)


/-- Process 7 of the small machine, searched with a path token. -/
theorem pid_takes_precedence_witness :
    pid_env.pid > 0 ∧
      ∀ e ∈ (list_probes pid_env 0 "uprobe:/bin/sh:*".toList).trace,
        (∀ cmd p, e ≠ Event.resolve_binary_path cmd p) ∧
          (∀ path, e = Event.extract_func_symbols_from_path path →
            path = pid_env.path_for_pid_mountns pid_env.pid
              (pid_env.get_pid_exe pid_env.pid)) :=
  ⟨by decide, fun e he =>
    ⟨(pid_takes_precedence pid_env 0 "uprobe:/bin/sh:*".toList (by decide) e he).1,
      (pid_takes_precedence pid_env 0 "uprobe:/bin/sh:*".toList (by decide) e he).2.2.1⟩⟩

/-! ## Targets and the short-circuit -/

theorem no_uprobe_after (env : Env) (fuel : Nat) (probe_name search : Str) (re : Regex)
    (hname : probe_name ≠ "usdt".toList) (hpid : env.pid ≤ 0) :
    ∀ e ∈ ((usdt_block env probe_name search re).andThen
        ((tracepoint_block env fuel search re).andThen (kernel_block env search re))).trace,
      ∀ st l, e = Event.cout st l → st ≠ Stage.uprobe ∧ st ≠ Stage.usdt := by
  apply forall_andThen
  · intro e he
    have hp : ¬ env.pid > 0 := by omega
    simp only [usdt_block, hp, hname, if_false, Run.emit, List.not_mem_nil] at he
  apply forall_andThen
  · intro e he st l hcout
    have := tracepoint_block_plain env fuel search re e he
    exact ⟨fun h => plain_output_ne_cout _ e this Stage.uprobe (by decide) l (h ▸ hcout),
      fun h => plain_output_ne_cout _ e this Stage.usdt (by decide) l (h ▸ hcout)⟩
  · intro e he st l hcout
    have := kernel_block_plain env search re e he
    exact ⟨fun h => plain_output_ne_cout _ e this Stage.uprobe (by decide) l (h ▸ hcout),
      fun h => plain_output_ne_cout _ e this Stage.usdt (by decide) l (h ▸ hcout)⟩

theorem no_usdt_after (env : Env) (fuel : Nat) (search : Str) (re : Regex) :
    ∀ e ∈ ((tracepoint_block env fuel search re).andThen (kernel_block env search re)).trace,
      ∀ l, e ≠ Event.cout Stage.usdt l := by
  apply forall_andThen
  · intro e he l
    exact plain_output_ne_cout _ e (tracepoint_block_plain env fuel search re e he)
      Stage.usdt (by decide) l
  · intro e he l
    exact plain_output_ne_cout _ e (kernel_block_plain env search re e he)
      Stage.usdt (by decide) l

theorem stage_lines_from_list (st stage : Stage) (h : st ≠ stage) (l : List ProbeListItem)
    (pt search : Str) (re : Regex) :
    ∀ e ∈ (Run.emit (list_probes_from_list stage l pt search re)).trace,
      ∀ line, e ≠ Event.cout st line := by
  intro e he line
  exact plain_output_ne_cout _ e (from_list_plain stage l pt search re e he) st
    (by simpa using h) line

/-- C7: when the search string is a probe type that stands for `uprobe` (respectively
`usdt`), a colon and a path token without further colon, no process id is given, the
token resolves to exactly one binary and the pattern compiles, `list_probes` prints every
entry of that target whatever the pattern says: one line `uprobe:<path>:<symbol>` for
every line of the symbol list extracted from the resolved path (the token being
non-empty), respectively one line `usdt:<path>:<provider>:<name>` for every probe of the
by-path query, in enumeration order and with none left out. -/
theorem show_all_lists_every_entry (env : Env) (fuel : Nat) (pre tok p : Str)
    (hpid : env.pid ≤ 0) (hpre : ':' ∉ pre) (htok : ':' ∉ tok) :
    (env.probetypeName pre = "uprobe".toList → tok ≠ [] →
        env.resolve_binary_path tok none = [p] →
        (std_regex env.regex_ext (search_pattern ("uprobe:".toList ++ tok))).isSome = true →
        stage_lines Stage.uprobe (list_probes env fuel (pre ++ ':' :: tok)).trace =
          (file_lines (env.extract_func_symbols_from_path p)).map fun sym =>
            "uprobe:".toList ++ p ++ ":".toList ++ sym) ∧
      (env.probetypeName pre = "usdt".toList →
        env.resolve_binary_path tok (some env.pid) = [p] →
        (std_regex env.regex_ext (search_pattern ("usdt:".toList ++ tok))).isSome = true →
        stage_lines Stage.usdt (list_probes env fuel (pre ++ ':' :: tok)).trace =
          (env.probes_for_path p).map fun u =>
            "usdt:".toList ++ u.path ++ ":".toList ++ u.provider ++ ":".toList ++ u.name) := by
  have hp : ¬ env.pid > 0 := by omega
  have hall : (!contains_char ':' tok) = true := by
    cases hc : contains_char ':' tok with
    | false => rfl
    | true => exact absurd ((contains_char_iff _ _).mp hc) htok
  constructor
  · intro hname hne hres hcomp
    have hsearch : "uprobe".toList ++ ':' :: tok = "uprobe:".toList ++ tok := by simp
    obtain ⟨re, hre⟩ := Option.isSome_iff_exists.mp hcomp
    have hafter : after_first ':' ("uprobe:".toList ++ tok) = tok := by
      rw [← hsearch]
      exact after_first_append_cons ':' _ tok (by decide)
    have hub : uprobe_block env "uprobe".toList ("uprobe:".toList ++ tok) re =
        Run.emit (Event.resolve_binary_path tok none ::
          uprobe_symbols env p true ("uprobe:".toList ++ tok) re) := by
      have hemp : tok.isEmpty = false := by
        cases tok with
        | nil => exact absurd rfl hne
        | cons c t => rfl
      simp only [uprobe_block, hp, if_false, if_true, hafter, hall,
        before_first_of_not_mem ':' tok htok, hres, hemp, Bool.not_false]
    unfold list_probes
    simp only [normalize_split _ _ _ hpre, hname, hsearch, hre]
    rw [stage_lines_andThen_right _ _ _ (stage_lines_from_list _ _ (by decide) _ _ _ _) rfl,
      stage_lines_andThen_right _ _ _ (stage_lines_from_list _ _ (by decide) _ _ _ _) rfl,
      stage_lines_andThen_left _ _ _ (fun e he l hcout =>
        (no_uprobe_after env fuel _ _ re (by decide) hpid e he _ l hcout).1 rfl),
      hub, uprobe_symbols_show_all]
    simp only [Run.emit, stage_lines]
    exact stage_lines_map_same _ _ _
  · intro hname hres hcomp
    have hsearch : "usdt".toList ++ ':' :: tok = "usdt:".toList ++ tok := by simp
    obtain ⟨re, hre⟩ := Option.isSome_iff_exists.mp hcomp
    have hafter : after_first ':' ("usdt:".toList ++ tok) = tok := by
      rw [← hsearch]
      exact after_first_append_cons ':' _ tok (by decide)
    have hne : ¬ ("usdt".toList = "uprobe".toList) := by decide
    have hub : uprobe_block env "usdt".toList ("usdt:".toList ++ tok) re = Run.emit [] := by
      simp only [uprobe_block, hp, if_false, hne]
    have hus : usdt_block env "usdt".toList ("usdt:".toList ++ tok) re =
        Run.emit (Event.resolve_binary_path tok (some env.pid) :: Event.probes_for_path p ::
          usdt_emit (env.probes_for_path p) true ("usdt:".toList ++ tok) re) := by
      simp only [usdt_block, hp, if_false, if_true, hafter, hall,
        before_first_of_not_mem ':' tok htok, hres]
    unfold list_probes
    simp only [normalize_split _ _ _ hpre, hname, hsearch, hre]
    rw [stage_lines_andThen_right _ _ _ (stage_lines_from_list _ _ (by decide) _ _ _ _) rfl,
      stage_lines_andThen_right _ _ _ (stage_lines_from_list _ _ (by decide) _ _ _ _) rfl,
      hub, emit_andThen]
    simp only [List.nil_append]
    rw [stage_lines_andThen_left _ _ _ (no_usdt_after env fuel _ re), hus, usdt_emit_all]
    simp only [Run.emit, stage_lines]
    exact stage_lines_map_same _ _ _


/-- The searches `u:/bin/sh` and `U:/bin/sh` on the small machine. -/
theorem show_all_lists_every_entry_witness :
    demo_env.pid ≤ 0 ∧ ':' ∉ "u".toList ∧ ':' ∉ "/bin/sh".toList ∧
      stage_lines Stage.uprobe (list_probes demo_env 0 "u:/bin/sh".toList).trace =
        ["uprobe:/bin/sh:main".toList, "uprobe:/bin/sh:readline".toList] ∧
      stage_lines Stage.usdt (list_probes demo_env 0 "U:/bin/sh".toList).trace =
        ["usdt:/bin/sh:sh:start".toList] :=
  ⟨by decide, by decide, by decide,
    Eq.trans ((show_all_lists_every_entry demo_env 0 "u".toList "/bin/sh".toList
      "/bin/sh".toList (by decide) (by decide) (by decide)).1 (by decide) (by decide)
      (by decide) (by decide)) (by decide),
    Eq.trans ((show_all_lists_every_entry demo_env 0 "U".toList "/bin/sh".toList
      "/bin/sh".toList (by decide) (by decide) (by decide)).2 (by decide) (by decide)
      (by decide)) (by decide)⟩

/-! ## Searches that cannot match -/

/-- The compiled pattern of a search within the modelled grammar and without line
feed. -/
theorem std_regex_one_line (ext : Str → Option Regex) (search : Str)
    (hm : unmodelled search = false) (hn : '\n' ∉ search) :
    std_regex ext (search_pattern search) =
      some (Regex.ofGrep [Term.bol :: (search.map term_of ++ [Term.eol])]) := by
  simp [std_regex, unmodelled_search_pattern, hm, grep_parse_one_line _ hn]

/-- A pattern that starts with an ordinary character rejects every probe that does not
start with that character in either letter case. -/
theorem first_char_rejects (c0 : Char) (more probe : Str)
    (hc0 : term_of c0 = Term.atom (Atom.chr c0) false)
    (hp : ∀ d t, probe = d :: t → d.toLower ≠ c0.toLower) :
    search_probe probe
      (Regex.ofGrep [Term.bol :: ((c0 :: more).map term_of ++ [Term.eol])]) = true := by
  rw [search_probe_ofGrep, grep_search_bol, List.map_cons, hc0]
  cases probe with
  | nil => simp [match_terms]
  | cons d t =>
    have := hp d t rfl
    simp [match_terms, Atom.accepts, this]

theorem from_list_all_rejected (stage : Stage) (l : List ProbeListItem) (pt search : Str)
    (re : Regex) (hs : search ≠ [])
    (h : ∀ item ∈ l, search_probe (pt ++ ":".toList ++ item.path ++ ":".toList) re = true) :
    list_probes_from_list stage l pt search re = [] := by
  have hemp : search.isEmpty = false := by
    cases search with
    | nil => exact absurd rfl hs
    | cons c t => rfl
  simp only [list_probes_from_list, List.filterMap_eq_nil_iff]
  intro item hitem
  rw [hemp, h item hitem]
  rfl


theorem unmodelled_append (a b : Str) : unmodelled (a ++ b) = (unmodelled a || unmodelled b) := by
  simp [unmodelled, List.any_append]

theorem software_probe_head (pt : Str) (c : Char) (r path d : Str) (x : Char) (hpt : pt = c :: r)
    (h : pt ++ ":".toList ++ path ++ ":".toList = x :: d) : x = c := by
  subst hpt
  simp at h
  exact h.1.symm

/-- When the search is `u...` within the modelled grammar and without line feed, the
software and hardware blocks print nothing. -/
theorem catalog_blocks_silent (env : Env) (more : Str) (re : Regex)
    (hre : re = Regex.ofGrep [Term.bol :: (('u' :: more).map term_of ++ [Term.eol])]) :
    list_probes_from_list Stage.software env.SW_PROBE_LIST "software".toList ('u' :: more) re
        = [] ∧
      list_probes_from_list Stage.hardware env.HW_PROBE_LIST "hardware".toList ('u' :: more)
        re = [] := by
  subst hre
  constructor
  · apply from_list_all_rejected _ _ _ _ _ (by simp)
    intro item _
    apply first_char_rejects 'u' more _ (by decide)
    intro d t h
    rw [software_probe_head "software".toList 's' "oftware".toList item.path t d rfl h]
    decide
  · apply from_list_all_rejected _ _ _ _ _ (by simp)
    intro item _
    apply first_char_rejects 'u' more _ (by decide)
    intro d t h
    rw [software_probe_head "hardware".toList 'h' "ardware".toList item.path t d rfl h]
    decide

/-- C4, as stated, fails: a search with a line feed compiles to a pattern with two
alternatives. For `uprobe:x<LF>software:cpu-clock:` the path token `x<LF>software`
resolves to no binary and the listing is aborted, but the software block has already
printed `software:cpu-clock:`. -/
theorem unresolved_target_still_prints :
    demo_env.pid ≤ 0 ∧
      (normalize demo_env.probetypeName "uprobe:x\nsoftware:cpu-clock:".toList).1 =
        "uprobe".toList ∧
      demo_env.resolve_binary_path
        (before_first ':' (after_first ':' "uprobe:x\nsoftware:cpu-clock:".toList)) none = [] ∧
      list_probes demo_env 0 "uprobe:x\nsoftware:cpu-clock:".toList =
        { trace := [Event.cout Stage.software "software:cpu-clock:".toList,
            Event.resolve_binary_path "x\nsoftware".toList none,
            Event.cerr
              "uprobe target 'x\nsoftware' does not exist or is not executable".toList],
          ctl := Ctl.ret } := by
  decide

/-- C4, amended: when no process id is given, the search string is a probe type that
stands for `uprobe` (respectively `usdt`), a colon and a rest that has no line feed,
backslash, opening bracket or NUL, and the path token of the rest resolves to no binary,
`list_probes` asks the resolver, writes one line to standard error and returns: nothing
is written to standard output, neither by the software and hardware blocks before the
resolution nor by a later block, and the kernel-function provider is not called. -/
theorem unresolved_target_prints_nothing (env : Env) (fuel : Nat) (pre rest : Str)
    (hpid : env.pid ≤ 0) (hpre : ':' ∉ pre)
    (hrest : ∀ c ∈ rest, c ≠ '\n' ∧ c ≠ '\\' ∧ c ≠ '[' ∧ c ≠ Char.ofNat 0) :
    (env.probetypeName pre = "uprobe".toList →
        env.resolve_binary_path (before_first ':' rest) none = [] →
        list_probes env fuel (pre ++ ':' :: rest) =
          { trace := [Event.resolve_binary_path (before_first ':' rest) none,
              Event.cerr ("uprobe target '".toList ++ before_first ':' rest ++
                "' does not exist or is not executable".toList)],
            ctl := Ctl.ret }) ∧
      (env.probetypeName pre = "usdt".toList →
        env.resolve_binary_path (before_first ':' rest) (some env.pid) = [] →
        list_probes env fuel (pre ++ ':' :: rest) =
          { trace := [Event.resolve_binary_path (before_first ':' rest) (some env.pid),
              Event.cerr ("usdt target '".toList ++ before_first ':' rest ++
                "' does not exist or is not executable".toList)],
            ctl := Ctl.ret }) := by
  have hp : ¬ env.pid > 0 := by omega
  have hmr : unmodelled rest = false :=
    unmodelled_eq_false rest (fun c hc => ⟨(hrest c hc).2.1, (hrest c hc).2.2.1,
      (hrest c hc).2.2.2⟩)
  have hnr : '\n' ∉ rest := fun h => (hrest _ h).1 rfl
  constructor
  · intro hname hres
    have hm : unmodelled ("uprobe".toList ++ ':' :: rest) = false := by
      have e : "uprobe".toList ++ ':' :: rest = "uprobe:".toList ++ rest := by simp
      rw [e, unmodelled_append, hmr]
      decide
    have hn : '\n' ∉ "uprobe".toList ++ ':' :: rest := by
      intro h
      rcases List.mem_append.mp h with h | h
      · exact absurd h (by decide)
      · rcases List.mem_cons.mp h with h | h
        · exact absurd h (by decide)
        · exact hnr h
    have hafter : after_first ':' ("uprobe".toList ++ ':' :: rest) = rest :=
      after_first_append_cons ':' _ rest (by decide)
    obtain ⟨hsw, hhw⟩ := catalog_blocks_silent env ("probe".toList ++ ':' :: rest) _ rfl
    unfold list_probes
    simp only [normalize_split _ _ _ hpre, hname, std_regex_one_line _ _ hm hn]
    have e : "uprobe".toList ++ ':' :: rest = 'u' :: ("probe".toList ++ ':' :: rest) := rfl
    rw [e] at hafter ⊢
    rw [hsw, hhw, emit_andThen, emit_andThen]
    simp only [List.nil_append]
    have hub : ∀ re, uprobe_block env "uprobe".toList
        ('u' :: ("probe".toList ++ ':' :: rest)) re =
        { trace := [Event.resolve_binary_path (before_first ':' rest) none,
            Event.cerr ("uprobe target '".toList ++ before_first ':' rest ++
              "' does not exist or is not executable".toList)],
          ctl := Ctl.ret } := by
      intro re
      simp only [uprobe_block, hp, if_false, if_true, hafter, hres]
    rw [hub, andThen_stop _ _ (by simp)]
  · intro hname hres
    have hm : unmodelled ("usdt".toList ++ ':' :: rest) = false := by
      have e : "usdt".toList ++ ':' :: rest = "usdt:".toList ++ rest := by simp
      rw [e, unmodelled_append, hmr]
      decide
    have hn : '\n' ∉ "usdt".toList ++ ':' :: rest := by
      intro h
      rcases List.mem_append.mp h with h | h
      · exact absurd h (by decide)
      · rcases List.mem_cons.mp h with h | h
        · exact absurd h (by decide)
        · exact hnr h
    have hafter : after_first ':' ("usdt".toList ++ ':' :: rest) = rest :=
      after_first_append_cons ':' _ rest (by decide)
    obtain ⟨hsw, hhw⟩ := catalog_blocks_silent env ("sdt".toList ++ ':' :: rest) _ rfl
    have hne : ¬ ("usdt".toList = "uprobe".toList) := by decide
    unfold list_probes
    simp only [normalize_split _ _ _ hpre, hname, std_regex_one_line _ _ hm hn]
    have e : "usdt".toList ++ ':' :: rest = 'u' :: ("sdt".toList ++ ':' :: rest) := rfl
    rw [e] at hafter ⊢
    rw [hsw, hhw, emit_andThen, emit_andThen]
    simp only [List.nil_append]
    have hub : ∀ re, uprobe_block env "usdt".toList
        ('u' :: ("sdt".toList ++ ':' :: rest)) re = Run.emit [] := by
      intro re
      simp only [uprobe_block, hp, if_false, hne]
    have hus : ∀ re, usdt_block env "usdt".toList
        ('u' :: ("sdt".toList ++ ':' :: rest)) re =
        { trace := [Event.resolve_binary_path (before_first ':' rest) (some env.pid),
            Event.cerr ("usdt target '".toList ++ before_first ':' rest ++
              "' does not exist or is not executable".toList)],
          ctl := Ctl.ret } := by
      intro re
      simp only [usdt_block, hp, if_false, if_true, hafter, hres]
    rw [hub, emit_andThen, hus, andThen_stop _ _ (by simp)]
    rfl

/-- The search `u:/bin/nope:main` on the small machine. -/
theorem unresolved_target_prints_nothing_witness :
    demo_env.pid ≤ 0 ∧ ':' ∉ "u".toList ∧
      (∀ c ∈ "/bin/nope:main".toList, c ≠ '\n' ∧ c ≠ '\\' ∧ c ≠ '[' ∧ c ≠ Char.ofNat 0) ∧
      stdout_lines (list_probes demo_env 0 "u:/bin/nope:main".toList).trace = [] :=
  ⟨by decide, by decide, by decide,
    Eq.trans (congrArg (fun r => stdout_lines r.trace)
      ((unresolved_target_prints_nothing demo_env 0 "u".toList "/bin/nope:main".toList
        (by decide) (by decide) (by decide)).1 (by decide) (by decide))) (by decide)⟩


/-- On a search that starts with `t`, has no line feed and stays within the modelled
grammar, the short-circuit loses nothing: the pattern lets no `kprobe:<function>`
identifier pass, so the kprobe loop would print no line. -/
theorem short_circuit_sound_one_line (ext : Str → Option Regex) (more : Str)
    (hmore : ∀ c ∈ more, c ≠ '\n' ∧ c ≠ '\\' ∧ c ≠ '[' ∧ c ≠ Char.ofNat 0) :
    (∀ function, pattern_accepts ext ('t' :: more) ("kprobe:".toList ++ function) =
        some false) ∧
      ∃ re, std_regex ext (search_pattern ('t' :: more)) = some re ∧
        ∀ content, kprobe_emit ('t' :: more) re content = [] := by
  have hm : unmodelled ('t' :: more) = false := by
    have e : 't' :: more = ['t'] ++ more := rfl
    rw [e, unmodelled_append, unmodelled_eq_false more (fun c hc =>
      ⟨(hmore c hc).2.1, (hmore c hc).2.2.1, (hmore c hc).2.2.2⟩)]
    decide
  have hn : '\n' ∉ 't' :: more := by
    intro h
    rcases List.mem_cons.mp h with h | h
    · exact absurd h (by decide)
    · exact (hmore _ h).1 rfl
  have hrej : ∀ function, search_probe ("kprobe:".toList ++ function)
      (Regex.ofGrep [Term.bol :: (('t' :: more).map term_of ++ [Term.eol])]) = true := by
    intro function
    apply first_char_rejects 't' more _ (by decide)
    intro d t h
    have hd : d = 'k' := by
      simp at h
      exact h.1.symm
    rw [hd]
    decide
  constructor
  · intro function
    simp only [pattern_accepts, std_regex_one_line ext _ hm hn, Option.map_some', hrej function]
    rfl
  · refine ⟨_, std_regex_one_line ext _ hm hn, fun content => ?_⟩
    simp only [kprobe_emit, List.filterMap_eq_nil_iff]
    intro line _
    simp only [kprobe_line]
    rw [hrej]
    rfl

/-- C10, at the failing input: the search `tracepoint:sched:*<LF>kprobe:do_exit` starts
with `t` after the alias replacement, its pattern lets the identifier `kprobe:do_exit`
pass, and the kprobe block, run with this search and pattern, prints `kprobe:do_exit`
for both lines of the available-functions file; `list_probes` prints the tracepoint and
returns before the kprobe block. -/
theorem short_circuit_drops_kprobes :
    (normalize demo_env.probetypeName
        "tracepoint:sched:*\nkprobe:do_exit".toList).2.headD (Char.ofNat 0) = 't' ∧
      pattern_accepts demo_env.regex_ext
        (normalize demo_env.probetypeName "tracepoint:sched:*\nkprobe:do_exit".toList).2
        "kprobe:do_exit".toList = some true ∧
      (std_regex demo_env.regex_ext (search_pattern (normalize demo_env.probetypeName
          "tracepoint:sched:*\nkprobe:do_exit".toList).2)).map
        (fun re => stage_lines Stage.kprobe (kprobe_block demo_env
          (normalize demo_env.probetypeName
            "tracepoint:sched:*\nkprobe:do_exit".toList).2 re).trace) =
        some ["kprobe:do_exit".toList, "kprobe:do_exit".toList] ∧
      list_probes demo_env 0 "tracepoint:sched:*\nkprobe:do_exit".toList =
        { trace := [Event.cout Stage.tracepoint "tracepoint:sched:sched_switch".toList],
          ctl := Ctl.ret } := by
  decide

end bpftrace
